import Mathlib

/-!
Verification of the invoice-automation repository (src/invoice_utils.py and
src/run_create_invoices.py) against its natural-language specification.

The Python code is shallowly embedded: cells are `String`s (the Sheets values
API returns formatted strings), rows are `List String`, tables carry a title
and a rectangular value block.  Python `dict`s (which preserve insertion
order) are embedded as insertion-ordered association lists.  `Decimal` and
`float` amounts are embedded as `ℚ`; Python string functions (`str.strip`,
`str.lower`, `re.sub(r'\s+', ...)`, substring containment) are embedded over
`List Char` with the ASCII whitespace/case conventions, which cover the
repertoire the program manipulates.  Functions that can raise in Python
return `Option` (`none` = the exception propagates / nothing is written).
-/

/-! ## Character primitives -/

/-- Whitespace test matching Python `str.strip` / `re` `\s` on ASCII:
space, tab, newline, carriage return, vertical tab, form feed. -/
def isWsChar (c : Char) : Bool :=
  decide (c.toNat = 32 ∨ c.toNat = 9 ∨ c.toNat = 10 ∨ c.toNat = 13 ∨
          c.toNat = 11 ∨ c.toNat = 12)

/-- Decimal digit test (`[0-9]`). -/
def isDigitChar (c : Char) : Bool :=
  decide (48 ≤ c.toNat ∧ c.toNat ≤ 57)

theorem char_toNat_ofNat_valid (n : Nat) (h : n < 55296) :
    (Char.ofNat n).toNat = n := by
  have hv : n.isValidChar := Or.inl h
  rw [Char.ofNat, dif_pos hv]
  simp [Char.ofNatAux, Char.toNat, UInt32.toNat]

theorem toLower_toNat (c : Char) :
    c.toLower.toNat = if 65 ≤ c.toNat ∧ c.toNat ≤ 90 then c.toNat + 32 else c.toNat := by
  show (if c.toNat ≥ 65 ∧ c.toNat ≤ 90 then Char.ofNat (c.toNat + 32) else c).toNat = _
  by_cases h : 65 ≤ c.toNat ∧ c.toNat ≤ 90
  · have hle : c.toNat ≤ 90 := h.2
    rw [if_pos h, if_pos h, char_toNat_ofNat_valid _ (by omega)]
  · rw [if_neg h, if_neg h]

theorem toLower_eq_self (c : Char) (h : ¬ (65 ≤ c.toNat ∧ c.toNat ≤ 90)) :
    c.toLower = c := by
  show (if c.toNat ≥ 65 ∧ c.toNat ≤ 90 then Char.ofNat (c.toNat + 32) else c) = c
  exact if_neg h

theorem toLower_toLower (c : Char) : c.toLower.toLower = c.toLower := by
  apply toLower_eq_self
  rw [toLower_toNat]
  split <;> omega

theorem isWsChar_toLower (c : Char) : isWsChar c.toLower = isWsChar c := by
  simp only [isWsChar, toLower_toNat]
  split
  · next h => exact decide_eq_decide.mpr (by omega)
  · rfl

/-! ## List-of-characters primitives -/

/-- Python `str.strip()` (ASCII whitespace). -/
def stripL (l : List Char) : List Char :=
  ((l.dropWhile isWsChar).reverse.dropWhile isWsChar).reverse

/-- `re.sub(r'\s+', ' ', ·)`: every maximal whitespace run becomes one space. -/
def collapseWs : List Char → List Char
  | [] => []
  | a :: tail =>
    match tail with
    | [] => if isWsChar a then [' '] else [a]
    | b :: rest =>
      if isWsChar a then
        (if isWsChar b then collapseWs (b :: rest) else ' ' :: collapseWs (b :: rest))
      else a :: collapseWs (b :: rest)

/-- Python `str.lower()` (ASCII letters; the program's data is ASCII). -/
def lowerStr (l : List Char) : List Char := l.map Char.toLower

/-- `normalize_text` (invoice_utils.py:29) = `normalize_name`
(run_create_invoices.py:227), on the character list:
strip, collapse whitespace runs to one space, lowercase. -/
def normAux (l : List Char) : List Char := lowerStr (collapseWs (stripL l))

/-- `normalize_text` from invoice_utils.py (lines 29-36); `normalize_name` in
run_create_invoices.py line 227-228 performs the identical three steps. -/
def normalize_text (s : String) : String := ⟨normAux s.data⟩

/-- Python `str.strip()` on `String`. -/
def stripS (s : String) : String := ⟨stripL s.data⟩

/-! ### Facts about `collapseWs` -/

theorem collapseWs_head? : ∀ (b : Char) (rest : List Char),
    (collapseWs (b :: rest)).head? = some (if isWsChar b then ' ' else b) := by
  intro b rest
  induction rest generalizing b with
  | nil => by_cases h : isWsChar b <;> simp [collapseWs, h]
  | cons c rest ih =>
    by_cases hb : isWsChar b
    · by_cases hc : isWsChar c
      · simpa [collapseWs, hb, hc] using (ih c).trans (by rw [if_pos hc])
      · simp [collapseWs, hb, hc]
    · simp [collapseWs, hb]

theorem collapseWs_ne_nil {l : List Char} (h : l ≠ []) : collapseWs l ≠ [] := by
  match l, h with
  | a :: t, _ =>
    have := collapseWs_head? a t
    intro hc
    rw [hc] at this
    simp at this

theorem getLast?_cons_ne_nil {α : Type} {a : α} {m : List α} (h : m ≠ []) :
    (a :: m).getLast? = m.getLast? := by
  obtain ⟨b, m', rfl⟩ := List.exists_cons_of_ne_nil h
  exact List.getLast?_cons_cons

theorem getLast?_dropWhile_ne_nil {p : Char → Bool} :
    ∀ {x : List Char}, x.dropWhile p ≠ [] →
    (x.dropWhile p).getLast? = x.getLast? := by
  intro x
  induction x with
  | nil => intro h; simp [List.dropWhile] at h
  | cons a t ih =>
    intro h
    by_cases hp : p a
    · rw [List.dropWhile_cons, if_pos hp] at h ⊢
      have ht : t ≠ [] := by
        intro h0
        rw [h0] at h
        simp [List.dropWhile] at h
      rw [ih h, getLast?_cons_ne_nil ht]
    · rw [List.dropWhile_cons, if_neg hp]

theorem collapseWs_ws_mem : ∀ l : List Char, ∀ c ∈ collapseWs l, isWsChar c → c = ' ' := by
  intro l
  induction l with
  | nil => simp [collapseWs]
  | cons a tail ih =>
    match tail with
    | [] =>
      intro c hc hws
      by_cases h : isWsChar a
      · simp [collapseWs, h] at hc
        exact hc
      · simp [collapseWs, h] at hc
        subst hc
        exact absurd hws (by simp [h])
    | b :: rest =>
      intro c hc hws
      by_cases ha : isWsChar a
      · by_cases hb : isWsChar b
        · simp only [collapseWs, if_pos ha, if_pos hb] at hc
          exact ih c hc hws
        · simp only [collapseWs, if_pos ha, if_neg hb, List.mem_cons] at hc
          rcases hc with rfl | hc
          · rfl
          · exact ih c hc hws
      · simp only [collapseWs, if_neg ha, List.mem_cons] at hc
        rcases hc with rfl | hc
        · exact absurd hws (by simp [ha])
        · exact ih c hc hws

theorem collapseWs_chain' : ∀ l : List Char,
    List.Chain' (fun x y => ¬(isWsChar x = true ∧ isWsChar y = true)) (collapseWs l) := by
  intro l
  induction l with
  | nil => simp [collapseWs]
  | cons a tail ih =>
    match tail with
    | [] => by_cases h : isWsChar a <;> simp [collapseWs, h]
    | b :: rest =>
      by_cases ha : isWsChar a
      · by_cases hb : isWsChar b
        · simpa [collapseWs, ha, hb] using ih
        · simp only [collapseWs, if_pos ha, if_neg hb]
          rw [List.chain'_cons']
          refine ⟨?_, ih⟩
          intro y hy
          rw [collapseWs_head?, if_neg hb] at hy
          simp only [Option.mem_def, Option.some.injEq] at hy
          subst hy
          simp [hb]
      · simp only [collapseWs, if_neg ha]
        rw [List.chain'_cons']
        refine ⟨?_, ih⟩
        intro y _
        simp [ha]

theorem collapseWs_getLast? : ∀ l : List Char, ∀ x,
    (collapseWs l).getLast? = some x → isWsChar x →
    ∃ y, l.getLast? = some y ∧ isWsChar y := by
  intro l
  induction l with
  | nil => simp [collapseWs]
  | cons a tail ih =>
    match tail with
    | [] =>
      intro x hx hws
      refine ⟨a, by simp, ?_⟩
      by_cases h : isWsChar a
      · exact h
      · exfalso
        simp [collapseWs, h] at hx
        rw [← hx] at hws
        exact absurd hws (by simp [h])
    | b :: rest =>
      intro x hx hws
      have hne : collapseWs (b :: rest) ≠ [] := collapseWs_ne_nil (by simp)
      by_cases ha : isWsChar a
      · by_cases hb : isWsChar b
        · simp only [collapseWs, if_pos ha, if_pos hb] at hx
          obtain ⟨y, hy, hyw⟩ := ih x hx hws
          exact ⟨y, by rwa [List.getLast?_cons_cons], hyw⟩
        · simp only [collapseWs, if_pos ha, if_neg hb] at hx
          rw [getLast?_cons_ne_nil hne] at hx
          obtain ⟨y, hy, hyw⟩ := ih x hx hws
          exact ⟨y, by rwa [List.getLast?_cons_cons], hyw⟩
      · simp only [collapseWs, if_neg ha] at hx
        rw [getLast?_cons_ne_nil hne] at hx
        obtain ⟨y, hy, hyw⟩ := ih x hx hws
        exact ⟨y, by rwa [List.getLast?_cons_cons], hyw⟩

/-- When no whitespace run of length > 1 occurs and every whitespace
character is a plain space, collapsing is the identity. -/
theorem collapseWs_eq_self : ∀ l : List Char,
    (∀ c ∈ l, isWsChar c → c = ' ') →
    List.Chain' (fun x y => ¬(isWsChar x = true ∧ isWsChar y = true)) l →
    collapseWs l = l := by
  intro l
  induction l with
  | nil => intro; simp [collapseWs]
  | cons a tail ih =>
    match tail with
    | [] =>
      intro hmem _
      by_cases h : isWsChar a
      · have := hmem a (by simp) h
        simp [collapseWs, h, this]
      · simp [collapseWs, h]
    | b :: rest =>
      intro hmem hch
      rw [List.chain'_cons] at hch
      by_cases ha : isWsChar a
      · have hb : ¬ isWsChar b = true := fun hb => hch.1 ⟨ha, hb⟩
        have ha' : a = ' ' := hmem a (by simp) ha
        simp only [collapseWs, if_pos ha, if_neg hb]
        rw [ih (fun c hc => hmem c (by simp [hc])) hch.2, ha']
      · simp only [collapseWs, if_neg ha]
        rw [ih (fun c hc => hmem c (by simp [hc])) hch.2]

theorem dropWhile_eq_self_of_head {l : List Char} {p : Char → Bool}
    (h : ∀ a ∈ l.head?, ¬ p a = true) : l.dropWhile p = l := by
  cases l with
  | nil => rfl
  | cons a t =>
    have : ¬ p a = true := h a (by simp)
    simp [List.dropWhile_cons, this]

theorem head?_dropWhile {l : List Char} {p : Char → Bool} {a : Char}
    (h : (l.dropWhile p).head? = some a) : ¬ p a = true := by
  induction l with
  | nil => simp [List.dropWhile] at h
  | cons x t ih =>
    rw [List.dropWhile_cons] at h
    split at h
    · exact ih h
    · next hx => simp at h; subst h; exact hx

/-! ### Canonicity and idempotence of `normalize_text` (claim C10) -/

theorem stripL_head? {l : List Char} {a : Char} (h : (stripL l).head? = some a) :
    ¬ isWsChar a = true := by
  unfold stripL at h
  rw [List.head?_reverse] at h
  have hne : (l.dropWhile isWsChar).reverse.dropWhile isWsChar ≠ [] := by
    intro h0
    rw [h0] at h
    simp at h
  rw [getLast?_dropWhile_ne_nil hne, List.getLast?_reverse] at h
  exact head?_dropWhile h

theorem stripL_getLast? {l : List Char} {a : Char} (h : (stripL l).getLast? = some a) :
    ¬ isWsChar a = true := by
  unfold stripL at h
  rw [List.getLast?_reverse] at h
  exact head?_dropWhile h

theorem stripL_eq_self {l : List Char}
    (h1 : ∀ a ∈ l.head?, ¬ isWsChar a = true)
    (h2 : ∀ a ∈ l.getLast?, ¬ isWsChar a = true) : stripL l = l := by
  unfold stripL
  rw [dropWhile_eq_self_of_head h1]
  rw [dropWhile_eq_self_of_head (by simpa [List.head?_reverse] using h2)]
  exact List.reverse_reverse l

theorem normAux_lower_fixed : ∀ l : List Char, ∀ c ∈ normAux l, Char.toLower c = c := by
  intro l c hc
  simp only [normAux, lowerStr, List.mem_map] at hc
  obtain ⟨d, _, rfl⟩ := hc
  exact toLower_toLower d

theorem normAux_ws_eq_space : ∀ l : List Char, ∀ c ∈ normAux l, isWsChar c → c = ' ' := by
  intro l c hc hws
  simp only [normAux, lowerStr, List.mem_map] at hc
  obtain ⟨d, hd, rfl⟩ := hc
  rw [isWsChar_toLower] at hws
  rw [collapseWs_ws_mem _ d hd hws]
  exact toLower_eq_self ' ' (by simp)

theorem normAux_head? : ∀ l : List Char, ∀ a ∈ (normAux l).head?, ¬ isWsChar a = true := by
  intro l a ha
  simp only [normAux, lowerStr, List.head?_map, Option.mem_def, Option.map_eq_some'] at ha
  obtain ⟨b, hb, rfl⟩ := ha
  rw [isWsChar_toLower]
  cases hs : stripL l with
  | nil => rw [hs] at hb; simp [collapseWs] at hb
  | cons x t =>
    rw [hs, collapseWs_head?] at hb
    have hx : ¬ isWsChar x = true := stripL_head? (by rw [hs]; rfl)
    rw [if_neg hx] at hb
    cases hb
    exact hx

theorem normAux_getLast? : ∀ l : List Char, ∀ a ∈ (normAux l).getLast?, ¬ isWsChar a = true := by
  intro l a ha hws
  simp only [normAux, lowerStr, List.getLast?_map, Option.mem_def, Option.map_eq_some'] at ha
  obtain ⟨b, hb, rfl⟩ := ha
  rw [isWsChar_toLower] at hws
  obtain ⟨y, hy, hyw⟩ := collapseWs_getLast? (stripL l) b hb hws
  exact stripL_getLast? hy hyw

theorem normAux_chain' : ∀ l : List Char,
    List.Chain' (fun x y => ¬(isWsChar x = true ∧ isWsChar y = true)) (normAux l) := by
  intro l
  simp only [normAux, lowerStr]
  rw [List.chain'_map]
  refine (collapseWs_chain' (stripL l)).imp ?_
  intro a b h
  rwa [isWsChar_toLower, isWsChar_toLower]

theorem normAux_idem : ∀ l : List Char, normAux (normAux l) = normAux l := by
  intro l
  have h1 : stripL (normAux l) = normAux l :=
    stripL_eq_self (normAux_head? l) (normAux_getLast? l)
  have h2 : collapseWs (normAux l) = normAux l :=
    collapseWs_eq_self _ (normAux_ws_eq_space l) (normAux_chain' l)
  show lowerStr (collapseWs (stripL (normAux l))) = normAux l
  rw [h1, h2]
  exact (List.map_congr_left (normAux_lower_fixed l)).trans (List.map_id _)

/-- Claim C10: `normalize_text` is idempotent and canonical: its output is
all-lowercase, has no leading or trailing whitespace, and no internal run of
more than one whitespace character; hence normalizing twice equals
normalizing once. -/
theorem C10_normalize_idempotent (s : String) :
    normalize_text (normalize_text s) = normalize_text s ∧
    (∀ c ∈ (normalize_text s).data, Char.toLower c = c) ∧
    (∀ a ∈ (normalize_text s).data.head?, ¬ isWsChar a = true) ∧
    (∀ a ∈ (normalize_text s).data.getLast?, ¬ isWsChar a = true) ∧
    List.Chain' (fun x y => ¬(isWsChar x = true ∧ isWsChar y = true))
      (normalize_text s).data := by
  refine ⟨?_, ?_, ?_, ?_, ?_⟩
  · show (⟨normAux (normAux s.data)⟩ : String) = ⟨normAux s.data⟩
    rw [normAux_idem]
  · exact normAux_lower_fixed s.data
  · exact normAux_head? s.data
  · exact normAux_getLast? s.data
  · exact normAux_chain' s.data

/-- Witness for C10 at a concrete string: normalizing `"  John   SMITH \t"`
gives `"john smith"`, re-normalizing is a no-op, and the membership-style
conjuncts hold at a concrete member. -/
theorem C10_normalize_idempotent_witness :
    normalize_text "  John   SMITH \t" = "john smith" ∧
    normalize_text (normalize_text "  John   SMITH \t") =
      normalize_text "  John   SMITH \t" ∧
    Char.toLower 'j' = 'j' := by
  refine ⟨by decide, (C10_normalize_idempotent "  John   SMITH \t").1, ?_⟩
  exact (C10_normalize_idempotent "  John   SMITH \t").2.1 'j' (by decide)

/-! ## Money rounding (claim C9)

`Decimal` values are embedded as `ℚ` (every finite decimal is rational and
`quantize` is exact at this scale).  `ROUND_HALF_UP` in Python's `decimal`
rounds to the nearest multiple with ties going away from zero. -/

/-- Floor of a rational, written out on the reduced fraction so that it
evaluates by kernel reduction. -/
def ratFloor (q : ℚ) : ℤ := q.num / q.den

theorem ratFloor_eq_floor (q : ℚ) : ratFloor q = ⌊q⌋ := by
  rw [Rat.floor_def]
  rfl

/-- Round a rational to the nearest integer, ties away from zero
(`decimal.ROUND_HALF_UP` at exponent 0).  The sign test is on the numerator
(`0 ≤ q ↔ 0 ≤ q.num`) so that the definition evaluates by kernel
reduction. -/
def halfUpZ (q : ℚ) : ℤ :=
  if 0 ≤ q.num then ratFloor (q + 1 / 2) else -ratFloor (-q + 1 / 2)

/-- `round2_decimal` (invoice_utils.py lines 26-27):
`d.quantize(Decimal("0.01"), rounding=ROUND_HALF_UP)`. -/
def round2_decimal (q : ℚ) : ℚ := (halfUpZ (100 * q) : ℚ) / 100

theorem halfUpZ_intCast (k : ℤ) : halfUpZ (k : ℚ) = k := by
  have hhalf : ⌊(1 / 2 : ℚ)⌋ = 0 := by
    rw [Int.floor_eq_zero_iff]
    constructor <;> norm_num
  unfold halfUpZ
  rw [ratFloor_eq_floor, ratFloor_eq_floor]
  split
  · rw [Int.floor_int_add, hhalf, add_zero]
  · rw [show -(k : ℚ) = ((-k : ℤ) : ℚ) by push_cast; ring, Int.floor_int_add, hhalf,
      add_zero, neg_neg]

/-- Claim C9: the two-fractional-digit half-up rounding used for Money is
idempotent: re-rounding any already-rounded amount is a no-op. -/
theorem C9_round2_idempotent (q : ℚ) :
    round2_decimal (round2_decimal q) = round2_decimal q := by
  unfold round2_decimal
  have h : (100 : ℚ) * ((halfUpZ (100 * q) : ℚ) / 100) = (halfUpZ (100 * q) : ℚ) := by
    field_simp
  rw [h, halfUpZ_intCast]

/-! ## Amount parsing (claim C8)

`parse_amount` (invoice_utils.py lines 38-46) strips every character that is
not a digit, `.` or `-`; then feeds the result to `Decimal(...)` with a
catch-all returning 0.  `parseSignedDec` embeds the grammar the `Decimal`
constructor accepts restricted to the post-strip alphabet `[0-9.-]`:
an optional leading minus sign, then digits with at most one decimal point
and at least one digit. -/

/-- Characters kept by `re.sub(r'[^0-9.\-]', '', s)`. -/
def keepAmountChar (c : Char) : Bool := isDigitChar c || c = '.' || c = '-'

/-- `re.sub(r'[^0-9.\-]', '', s)` on the character list. -/
def cleanAmount (l : List Char) : List Char := l.filter keepAmountChar

/-- Value of a digit string, most significant first. -/
def digitsVal (l : List Char) : ℕ := l.foldl (fun a c => 10 * a + (c.toNat - 48)) 0

/-- The unsigned part of the `Decimal` grammar over `[0-9.]`: digits with at
most one point and at least one digit; value is exact. -/
def parseUnsignedDec (l : List Char) : Option ℚ :=
  let intPart := l.takeWhile isDigitChar
  let rest := l.dropWhile isDigitChar
  match rest with
  | [] => if intPart = [] then none else some (digitsVal intPart)
  | c :: frac =>
    if c = '.' ∧ frac.all isDigitChar ∧ (intPart ≠ [] ∨ frac ≠ []) then
      some ((digitsVal intPart : ℚ) + (digitsVal frac : ℚ) / (10 : ℚ) ^ frac.length)
    else none

/-- Adds the optional leading `-` of the `Decimal` grammar. -/
def parseSignedDec (l : List Char) : Option ℚ :=
  match l with
  | '-' :: r => (parseUnsignedDec r).map Neg.neg
  | _ => parseUnsignedDec l

/-- `parse_amount` from invoice_utils.py lines 38-46 (the inline copy in
run_create_invoices.py lines 119-125 strips with the same class, checks the
same three sentinel strings and has the same catch-all to 0). -/
def parse_amount (s : String) : ℚ :=
  let cleaned := cleanAmount s.data
  if cleaned = [] ∨ cleaned = ['.'] ∨ cleaned = ['-'] then 0
  else
    match parseSignedDec cleaned with
    | some q => q
    | none => 0

/-- Claim C8: `parse_amount` is total (it is a Lean function into `ℚ`, so it
never raises); it factors through stripping non-`[0-9.-]` characters; the
stripped results `""`, `"."`, `"-"` give 0; and any stripped result the
`Decimal` grammar rejects gives 0. -/
theorem C8_parse_amount_total (s : String) :
    parse_amount s = parse_amount ⟨cleanAmount s.data⟩ ∧
    (cleanAmount s.data = [] ∨ cleanAmount s.data = ['.'] ∨ cleanAmount s.data = ['-'] →
      parse_amount s = 0) ∧
    (parseSignedDec (cleanAmount s.data) = none → parse_amount s = 0) := by
  have hidem : cleanAmount (cleanAmount s.data) = cleanAmount s.data :=
    List.filter_eq_self.mpr (fun a ha => List.of_mem_filter ha)
  refine ⟨?_, ?_, ?_⟩
  · show parse_amount s = parse_amount ⟨cleanAmount s.data⟩
    unfold parse_amount
    simp only [hidem]
  · intro h
    unfold parse_amount
    rw [if_pos h]
  · intro h
    unfold parse_amount
    by_cases hpre : cleanAmount s.data = [] ∨ cleanAmount s.data = ['.'] ∨
        cleanAmount s.data = ['-']
    · rw [if_pos hpre]
    · rw [if_neg hpre]
      simp only [h]

/-- Witness for C8 at concrete inputs: `"ab-"` strips to `"-"` and parses to
0; `"x1.2.3"` strips to `"1.2.3"`, which the grammar rejects, giving 0. -/
theorem C8_parse_amount_total_witness :
    cleanAmount ("ab-".data) = ['-'] ∧ parse_amount "ab-" = 0 ∧
    parseSignedDec (cleanAmount ("x1.2.3".data)) = none ∧ parse_amount "x1.2.3" = 0 := by
  refine ⟨by decide, (C8_parse_amount_total "ab-").2.1 (Or.inr (Or.inr (by decide))), ?_, ?_⟩
  · decide
  · exact (C8_parse_amount_total "x1.2.3").2.2 (by decide)

/-! ## Substring containment

Python `k in s` is contiguous-substring containment.  `containsSub` embeds it
as the scanner the proofs unfold; `specContains` is the independent
positional formulation used on the specification side of claim C7. -/

/-- Does `l` start with `p`? -/
def startsWithL : List Char → List Char → Bool
  | _, [] => true
  | [], _ :: _ => false
  | h :: hs, p :: ps => decide (h = p) && startsWithL hs ps

/-- Python `p in hay` (contiguous substring). -/
def containsSub : List Char → List Char → Bool
  | [], pat => decide (pat = [])
  | a :: t, pat => startsWithL (a :: t) pat || containsSub t pat

theorem length_dropWhile_le' {α : Type} (p : α → Bool) (l : List α) :
    (l.dropWhile p).length ≤ l.length :=
  (List.dropWhile_sublist p).length_le

/-- Positional formulation of substring containment: some offset `i` of `hay`
starts with `pat`. -/
def specContains (hay pat : List Char) : Bool :=
  (List.range (hay.length + 1)).any (fun i => decide ((hay.drop i).take pat.length = pat))

theorem startsWithL_eq_decide : ∀ (p l : List Char),
    startsWithL l p = decide (l.take p.length = p) := by
  intro p
  induction p with
  | nil => intro l; cases l <;> simp [startsWithL]
  | cons q ps ih =>
    intro l
    cases l with
    | nil => simp [startsWithL]
    | cons a t => simp [startsWithL, ih t, List.cons.injEq, Bool.decide_and]

theorem specContains_nil (pat : List Char) : specContains [] pat = decide (pat = []) := by
  cases pat with
  | nil => decide
  | cons q ps => simp [specContains]

theorem specContains_cons (a : Char) (t pat : List Char) :
    specContains (a :: t) pat =
      (decide ((a :: t).take pat.length = pat) || specContains t pat) := by
  show (List.range (t.length + 1 + 1)).any _ = _
  rw [List.range_succ_eq_map, List.any_cons, List.any_map]
  congr 1

theorem containsSub_eq_spec : ∀ hay pat : List Char,
    containsSub hay pat = specContains hay pat := by
  intro hay pat
  induction hay with
  | nil => rw [specContains_nil]; rfl
  | cons a t ih =>
    rw [specContains_cons]
    show (startsWithL (a :: t) pat || containsSub t pat) = _
    rw [startsWithL_eq_decide, ih]

theorem find?_congr_mem {α : Type} {f g : α → Bool} :
    ∀ l : List α, (∀ a ∈ l, f a = g a) → l.find? f = l.find? g := by
  intro l
  induction l with
  | nil => intro _; rfl
  | cons a t ih =>
    intro h
    have ha := h a (by simp)
    rw [List.find?_cons, List.find?_cons, ← ha]
    cases f a
    · exact ih (fun b hb => h b (by simp [hb]))
    · rfl

/-! ## Category classifier (claim C7) -/

/-- `COURSE_MAP` from invoice_utils.py lines 105-121, in source order. -/
def COURSE_MAP : List (String × String) :=
  [("master 25-26", "Data Analytics"),
   ("master 25 26", "Data Analytics"),
   ("master comm", "Community Live Classes"),
   ("master community", "Community Live Classes"),
   ("master ds", "Data Science"),
   ("master data science", "Data Science"),
   ("master da", "Data Analytics"),
   ("da", "Data Analytics"),
   ("data analytics", "Data Analytics"),
   ("ds", "Data Science"),
   ("gen ai", "Generative AI"),
   ("genai", "Generative AI"),
   ("master gen ai", "Generative AI"),
   ("master fsd", "Full Stack Development"),
   ("fsd", "Full Stack Development")]

/-- `map_pairs` from run_create_invoices.py lines 139-157 (two extra
"full stack" rules at the end), in source order. -/
def MAP_PAIRS_RUN : List (String × String) :=
  COURSE_MAP ++ [("full stack", "Full Stack Development"),
                 ("master full stack", "Full Stack Development")]

/-- The `for k,v in COURSE_MAP: if k in s: return v` scan (first match wins). -/
def lookupCourse (s : List Char) : List (String × String) → Option String
  | [] => none
  | (k, v) :: rest => if containsSub s k.data then some v else lookupCourse s rest

/-- Helper for `removeMaster`: while the skip counter is positive, discard
characters (the remainder of a matched occurrence); at zero, test for a
case-insensitive occurrence of "master" at the current position. -/
def rmAux : ℕ → List Char → List Char
  | _, [] => []
  | n + 1, _ :: cs => rmAux n cs
  | 0, c :: cs =>
    if startsWithL (lowerStr (c :: cs)) ("master".data) then rmAux 5 cs
    else c :: rmAux 0 cs

/-- One global case-insensitive removal pass of `re.sub(r'master', '', ·)`:
non-overlapping, leftmost-first. -/
def removeMaster (l : List Char) : List Char := rmAux 0 l

/-- `.replace('_',' ').replace('-',' ')` (invoice_utils.py line 130). -/
def replUnderHyphen (l : List Char) : List Char :=
  l.map (fun c => if c = '_' ∨ c = '-' then ' ' else c)

/-- `re.sub(r"[_\-]+", " ", ·)` (run_create_invoices.py line 163): each
maximal run of `_`/`-` becomes one space. -/
def replRunsUnderHyphen : List Char → List Char
  | [] => []
  | a :: tail =>
    match tail with
    | [] => if a = '_' ∨ a = '-' then [' '] else [a]
    | b :: rest =>
      if a = '_' ∨ a = '-' then
        (if b = '_' ∨ b = '-' then replRunsUnderHyphen (b :: rest)
         else ' ' :: replRunsUnderHyphen (b :: rest))
      else a :: replRunsUnderHyphen (b :: rest)

/-- `re.split(r'\s+', ·)` keeping only non-empty tokens (equally, Python
`str.split()`). -/
def splitWs : List Char → List (List Char)
  | [] => []
  | a :: tail =>
    match tail with
    | [] => if isWsChar a then [] else [[a]]
    | b :: rest =>
      if isWsChar a then splitWs (b :: rest)
      else if isWsChar b then [a] :: splitWs (b :: rest)
      else
        match splitWs (b :: rest) with
        | t :: ts => (a :: t) :: ts
        | [] => [[a]]

/-- Python `str.capitalize()`: first character uppercased, rest lowercased. -/
def capitalizeL : List Char → List Char
  | [] => []
  | c :: cs => c.toUpper :: lowerStr cs

/-- `" ".join(...)`. -/
def joinSp : List (List Char) → List Char
  | [] => []
  | t :: ts =>
    match ts with
    | [] => t
    | _ :: _ => t ++ ' ' :: joinSp ts

/-- The no-rule-matched cleanup of invoice_utils.py line 130-131: remove
"master" (case-insensitive), `_`/`-` to spaces, strip, capitalize each
whitespace-delimited token, join with single spaces. -/
def fallbackCleanIU (name : String) : String :=
  ⟨joinSp ((splitWs (stripL (replUnderHyphen (removeMaster name.data)))).map capitalizeL)⟩

/-- The no-rule-matched cleanup of run_create_invoices.py lines 162-164
(runs of `_`/`-` collapse to one space; `if w.strip()` filter kept as in the
source even though tokens are never blank). -/
def fallbackCleanRun (name : String) : String :=
  ⟨joinSp (((splitWs (stripL (replRunsUnderHyphen (removeMaster name.data)))).filter
    (fun w => !decide (stripL w = []))).map capitalizeL)⟩

/-- `friendly_course_name` from invoice_utils.py lines 123-131.  Note: when
the cleanup result is empty the empty string is returned (`" ".join` of no
parts); there is no fall-back to the original name in this variant. -/
def friendly_course_name (sheet_name : String) : String :=
  if sheet_name = "" then ""
  else
    match lookupCourse (lowerStr sheet_name.data) COURSE_MAP with
    | some v => v
    | none => fallbackCleanIU sheet_name

/-- `friendly_course_name` from run_create_invoices.py lines 135-165:
`" ".join(parts) or sheet_name` falls back to the original name when the
cleanup is empty. -/
def friendly_course_name_run (sheet_name : String) : String :=
  if sheet_name = "" then ""
  else
    match lookupCourse (lowerStr sheet_name.data) MAP_PAIRS_RUN with
    | some v => v
    | none =>
      if fallbackCleanRun sheet_name = "" then sheet_name else fallbackCleanRun sheet_name

/-- Specification-side first-match rule scan: the first rule (top to bottom)
whose lowercased pattern occurs positionally inside the lowercased name. -/
def specFirstRule (rules : List (String × String)) (name : String) : Option String :=
  (rules.find? (fun p => specContains (lowerStr name.data) (lowerStr p.1.data))).map Prod.snd

theorem lookupCourse_eq_find (s : List Char) :
    ∀ rules, lookupCourse s rules = (rules.find? (fun p => containsSub s p.1.data)).map Prod.snd := by
  intro rules
  induction rules with
  | nil => rfl
  | cons p rest ih =>
    obtain ⟨k, v⟩ := p
    by_cases h : containsSub s k.data
    · simp [lookupCourse, h, List.find?_cons]
    · simp only [lookupCourse, if_neg h]
      rw [ih, List.find?_cons]
      simp [h]

theorem rulesLowerFixedIU : ∀ p ∈ COURSE_MAP, lowerStr p.1.data = p.1.data := by decide

theorem rulesLowerFixedRun : ∀ p ∈ MAP_PAIRS_RUN, lowerStr p.1.data = p.1.data := by decide

theorem lookupCourse_eq_spec (name : String) (rules : List (String × String))
    (h : ∀ p ∈ rules, lowerStr p.1.data = p.1.data) :
    lookupCourse (lowerStr name.data) rules = specFirstRule rules name := by
  rw [lookupCourse_eq_find, specFirstRule]
  congr 1
  apply find?_congr_mem
  intro p hp
  rw [containsSub_eq_spec, h p hp]

/-- Counterexample to claim C7 as stated: on the table name `"master"` no
rule matches and the cleanup result is empty, yet the invoice_utils variant
returns `""` instead of the original table name. -/
theorem C7_classifier_counterexample :
    lookupCourse (lowerStr ("master".data)) COURSE_MAP = none ∧
    fallbackCleanIU "master" = "" ∧
    friendly_course_name "master" = "" ∧
    friendly_course_name "master" ≠ "master" := by decide

/-- Claim C7 (amended): both classifier variants scan their fixed ordered
rule list top-to-bottom and return the category of the first rule whose
lowercased pattern occurs (positionally) inside the lowercased table name;
when no rule matches, the run_create_invoices variant returns the
remove-"master"/underscore-hyphen-to-space/trim/title-case cleanup, falling
back to the original name when the cleanup is empty, while the
invoice_utils variant returns the cleanup result unconditionally — the
empty cleanup yields `""`, not the original name. -/
theorem C7_classifier_amended (name : String) :
    friendly_course_name name =
      (if name = "" then ""
       else
         match specFirstRule COURSE_MAP name with
         | some v => v
         | none => fallbackCleanIU name) ∧
    friendly_course_name_run name =
      (if name = "" then ""
       else
         match specFirstRule MAP_PAIRS_RUN name with
         | some v => v
         | none =>
           if fallbackCleanRun name = "" then name else fallbackCleanRun name) := by
  constructor
  · unfold friendly_course_name
    rw [lookupCourse_eq_spec name COURSE_MAP rulesLowerFixedIU]
  · unfold friendly_course_name_run
    rw [lookupCourse_eq_spec name MAP_PAIRS_RUN rulesLowerFixedRun]

/-! ## Effort aggregation (claims C5, C6)

A source table is a title plus the rectangular block returned by
`values().get` (header row first).  Cell access `row[i] if i < len(row)
else ""` with `i ≥ 0` is `List.getD`; when a column was not found the Python
index is `-1` and `row[-1]` is the LAST cell of the row — or an
`IndexError` on an empty row (`List.getLast? = none`). -/

structure SheetTable where
  title : String
  vals : List (List String)

/-- `find_header_index` (invoice_utils.py 134-142) / `find_col`
(run_create_invoices.py 54-60): index of the first header that contains any
of the (lowercase) keywords; `none` embeds Python's `-1`. -/
def findHeaderIdx (headers : List String) (keys : List String) : Option ℕ :=
  headers.findIdx? (fun h => keys.any (fun k => containsSub (lowerStr h.data) k.data))

/-- `row[col_month] if col_month < len(row) else ""`: for a found column
this is a total lookup; for `col_month = -1` Python reads `row[-1]` — the
last cell — which raises `IndexError` on an empty row (`none`). -/
def monthCellIU (row : List String) (colMonth : Option ℕ) : Option String :=
  match colMonth with
  | some i => some (row.getD i "")
  | none => row.getLast?

/-- `f"{str(sme).strip()}|{course}"` (invoice_utils.py line 171). -/
def mkKey (sme course : String) : String := sme ++ "|" ++ course

/-- `totals[key] = totals.get(key, 0) + amt` on an insertion-ordered dict. -/
def upsertAdd {κ : Type} [DecidableEq κ] : List (κ × ℚ) → κ → ℚ → List (κ × ℚ)
  | [], k, a => [(k, a)]
  | (k', v) :: rest, k, a =>
    if k' = k then (k', v + a) :: rest else (k', v) :: upsertAdd rest k a

/-- One data row of `aggregate_from_effort` (invoice_utils.py 162-172):
skip when the month cell is non-empty and differs (after trimming both
sides) from the selected month; skip blank instructors; otherwise add the
parsed amount to the `"sme|course"` total. -/
def effortRowStep (selected course : String) (colMonth : Option ℕ) (colSme colAmt : ℕ)
    (tot : List (String × ℚ)) (row : List String) : Option (List (String × ℚ)) :=
  match monthCellIU row colMonth with
  | none => none
  | some mc =>
    if mc ≠ "" ∧ stripS mc ≠ stripS selected then some tot
    else
      let sme := row.getD colSme ""
      if stripS sme = "" then some tot
      else some (upsertAdd tot (mkKey (stripS sme) course) (parse_amount (row.getD colAmt "")))

/-- One table of `aggregate_from_effort` (invoice_utils.py 147-172): only
titles containing "master" (case-insensitive); at least a header and one
data row; instructor and amount columns must be found, a month column is
optional.  An exception while scanning rows propagates (`none`). -/
def processEffortTable (selected : String) (tot : List (String × ℚ)) (t : SheetTable) :
    Option (List (String × ℚ)) :=
  if ¬ containsSub (lowerStr t.title.data) ("master".data) then some tot
  else if t.vals.length < 2 then some tot
  else
    let headers := t.vals.headD []
    match findHeaderIdx headers ["sme", "instructor", "name"],
        findHeaderIdx headers ["final round", "final amount", "amount"] with
    | some colSme, some colAmt =>
      let colMonth := findHeaderIdx headers ["month"]
      let course := friendly_course_name t.title
      t.vals.tail.foldlM (effortRowStep selected course colMonth colSme colAmt) tot
    | _, _ => some tot

/-- `aggregate_from_effort` (invoice_utils.py 144-174): fold the qualifying
tables into the totals dict, then round every total once at the end. -/
def aggregate_from_effort (tables : List SheetTable) (selected : String) :
    Option (List (String × ℚ)) :=
  (tables.foldlM (processEffortTable selected) []).map
    (fun tot => tot.map (fun p => (p.1, round2_decimal p.2)))

/-- The inline amount parsing of run_create_invoices.py lines 119-125:
`str(raw_amt) or "0"`, strip non-`[0-9.-]`, sentinel check, `float(...)`
with a catch-all to 0 (the `float` grammar on this alphabet coincides with
the `Decimal` grammar). -/
def parseAmountRun (raw : String) : ℚ :=
  let base := if raw = "" then "0" else raw
  let cleaned := cleanAmount base.data
  if cleaned = [] ∨ cleaned = ['.'] ∨ cleaned = ['-'] then 0
  else (parseSignedDec cleaned).getD 0

/-- One data row of the run_create_invoices.py aggregator (lines 112-128):
a row whose month cell is blank after trimming is skipped, as is one whose
trimmed month differs from the (untrimmed) selected month. -/
def effortRowStepRun (selected course : String) (colMonth : Option ℕ) (colSme colAmt : ℕ)
    (tot : List ((String × String) × ℚ)) (row : List String) :
    Option (List ((String × String) × ℚ)) :=
  match monthCellIU row colMonth with
  | none => none
  | some mc =>
    if stripS mc = "" ∨ stripS mc ≠ selected then some tot
    else
      let sme := stripS (row.getD colSme "")
      if sme = "" then some tot
      else some (upsertAdd tot (sme, course) (parseAmountRun (row.getD colAmt "")))

/-- Row loop of one table in the run variant: the whole per-table body is
inside `try/except`, so an exception keeps the totals accumulated so far
and abandons the rest of the table. -/
def runTableRows (selected course : String) (colMonth : Option ℕ) (colSme colAmt : ℕ) :
    List (List String) → List ((String × String) × ℚ) → List ((String × String) × ℚ)
  | [], tot => tot
  | r :: rs, tot =>
    match effortRowStepRun selected course colMonth colSme colAmt tot r with
    | none => tot
    | some tot2 => runTableRows selected course colMonth colSme colAmt rs tot2

/-- One table of `aggregate_from_effort` from run_create_invoices.py
(lines 92-131).  `course` is computed inside the row loop in the source but
is the same pure value for every row of the table. -/
def processEffortTableRun (selected : String) (tot : List ((String × String) × ℚ))
    (t : SheetTable) : List ((String × String) × ℚ) :=
  if ¬ containsSub (lowerStr t.title.data) ("master".data) then tot
  else if t.vals.length < 2 then tot
  else
    let headers := t.vals.headD []
    match findHeaderIdx headers ["sme", "instructor", "name"],
        findHeaderIdx headers ["final round", "final amount", "amount"] with
    | some colSme, some colAmt =>
      let colMonth := findHeaderIdx headers ["month"]
      let course := friendly_course_name_run t.title
      runTableRows selected course colMonth colSme colAmt t.vals.tail tot
    | _, _ => tot

/-- `aggregate_from_effort` from run_create_invoices.py (lines 84-132):
tuple-keyed totals, no rounding inside aggregation. -/
def aggregate_from_effort_run (tables : List SheetTable) (selected : String) :
    List ((String × String) × ℚ) :=
  tables.foldl (processEffortTableRun selected) []

/-- Counterexample to claim C5 as stated: on a table with a month column and
one data row whose period cell is blank, the invoice_utils aggregator
includes the row, but the run_create_invoices aggregator (also cited by the
claim) drops it entirely; and the invoice_utils aggregator itself drops a
row whose period cell is whitespace-only (blank after trimming but
non-empty). -/
theorem C5_blank_period_counterexample :
    aggregate_from_effort
        [⟨"Master DS", [["Month", "SME", "Final Amount"], ["", "Jane Doe", "100"]]⟩]
        "September 2025" = some [("Jane Doe|Data Science", 100)] ∧
    aggregate_from_effort_run
        [⟨"Master DS", [["Month", "SME", "Final Amount"], ["", "Jane Doe", "100"]]⟩]
        "September 2025" = [] ∧
    aggregate_from_effort
        [⟨"Master DS", [["Month", "SME", "Final Amount"], [" ", "Jane Doe", "100"]]⟩]
        "September 2025" = some [] := by
  refine ⟨by with_unfolding_all decide, by with_unfolding_all decide,
    by with_unfolding_all decide⟩

/-- Claim C5 (amended): row acceptance by period cell.  In the
invoice_utils aggregator a row whose period cell is the empty string
(including an absent cell) is accepted and its parsed amount added to the
`"sme|course"` total, but a non-empty whitespace-only period cell is
rejected whenever the target label is not itself blank, as is any cell
differing from the target after trimming both.  In the run_create_invoices
aggregator every row whose period cell is blank after trimming is rejected,
as is any whose trimmed cell differs from the untrimmed target label. -/
theorem C5_blank_period_amended
    (selected course : String) (colMonth : Option ℕ) (colSme colAmt : ℕ)
    (tot : List (String × ℚ)) (totR : List ((String × String) × ℚ))
    (row : List String) (mc : String)
    (hmc : monthCellIU row colMonth = some mc) :
    (mc = "" → stripS (row.getD colSme "") ≠ "" →
      effortRowStep selected course colMonth colSme colAmt tot row =
        some (upsertAdd tot (mkKey (stripS (row.getD colSme "")) course)
          (parse_amount (row.getD colAmt "")))) ∧
    (mc ≠ "" → stripS mc = "" → stripS selected ≠ "" →
      effortRowStep selected course colMonth colSme colAmt tot row = some tot) ∧
    (mc ≠ "" → stripS mc ≠ stripS selected →
      effortRowStep selected course colMonth colSme colAmt tot row = some tot) ∧
    (stripS mc = "" →
      effortRowStepRun selected course colMonth colSme colAmt totR row = some totR) ∧
    (stripS mc ≠ selected →
      effortRowStepRun selected course colMonth colSme colAmt totR row = some totR) := by
  refine ⟨?_, ?_, ?_, ?_, ?_⟩
  · intro h1 h2
    simp only [effortRowStep, hmc]
    rw [if_neg (by simp [h1])]
    simp only [if_neg h2]
  · intro h1 h2 h3
    simp only [effortRowStep, hmc]
    rw [if_pos ⟨h1, by rw [h2]; exact fun he => h3 he.symm⟩]
  · intro h1 h2
    simp only [effortRowStep, hmc]
    rw [if_pos ⟨h1, h2⟩]
  · intro h1
    simp only [effortRowStepRun, hmc]
    rw [if_pos (Or.inl h1)]
  · intro h1
    simp only [effortRowStepRun, hmc]
    rw [if_pos (Or.inr h1)]

/-- Witness for C5 (amended) at a concrete row with a blank period cell:
the invoice_utils row step adds the amount, the run variant's step leaves
the totals untouched. -/
theorem C5_blank_period_amended_witness :
    effortRowStep "Sep" "C" (some 0) 1 2 [] ["", "Jane", "5"] = some [("Jane|C", 5)] ∧
    effortRowStepRun "Sep" "C" (some 0) 1 2 [] ["", "Jane", "5"] = some [] := by
  constructor
  · have h := (C5_blank_period_amended "Sep" "C" (some 0) 1 2 [] [] ["", "Jane", "5"] ""
      (by decide)).1 rfl (by decide)
    rw [h]
    with_unfolding_all decide
  · exact (C5_blank_period_amended "Sep" "C" (some 0) 1 2 [] [] ["", "Jane", "5"] ""
      (by decide)).2.2.2.1 (by decide)

/-! ## Master row builder (claim C6) -/

/-- ASCII letter test (`[A-Za-z]`). -/
def isAsciiAlpha (c : Char) : Bool :=
  decide ((65 ≤ c.toNat ∧ c.toNat ≤ 90) ∨ (97 ≤ c.toNat ∧ c.toNat ≤ 122))

/-- The `months` list of `parse_month_string` (invoice_utils.py 52-54). -/
def MONTHS : List String :=
  ["January", "February", "March", "April", "May", "June", "July", "August",
   "September", "October", "November", "December"]

/-- Proleptic-Gregorian leap year, as computed by `datetime.date`. -/
def isLeap (y : ℕ) : Bool := decide ((y % 4 = 0 ∧ y % 100 ≠ 0) ∨ y % 400 = 0)

/-- `(date(yr, idx+2, 1) - timedelta(days=1)).day` for month index `idx`
(0-based), with December hard-coded to 31 as in the source. -/
def lastDayOfMonth (yr idx : ℕ) : ℕ :=
  if idx = 11 then 31
  else [31, if isLeap yr then 29 else 28, 31, 30, 31, 30, 31, 31, 30, 31, 30].getD idx 31

/-- Result of `parse_month_string`: the Python dict
`{"year", "monthName", "lastDay", "lastDate"}`; `midx` is the 0-based month
index determining the month field of `lastDate`. -/
structure MonthInfo where
  year : ℕ
  monthName : String
  lastDay : ℕ
  midx : ℕ

/-- `re.match(r'^([A-Za-z]+)\s+(\d{4})$', s)`: the month word and the
four-digit year. -/
def parseMonthShape1 (l : List Char) : Option (List Char × ℕ) :=
  let alpha := l.takeWhile isAsciiAlpha
  let r1 := l.dropWhile isAsciiAlpha
  let wsp := r1.takeWhile isWsChar
  let digs := r1.dropWhile isWsChar
  if alpha ≠ [] ∧ wsp ≠ [] ∧ digs.length = 4 ∧ digs.all isDigitChar then
    some (alpha, digitsVal digs)
  else none

/-- `re.match(r'^(\d{1,2})[\/\-](\d{4})$', s)`: numeric month and year. -/
def parseMonthShape2 (l : List Char) : Option (ℕ × ℕ) :=
  let digs1 := l.takeWhile isDigitChar
  let r1 := l.dropWhile isDigitChar
  match r1 with
  | sep :: rest =>
    if (sep = '/' ∨ sep = '-') ∧ (digs1.length = 1 ∨ digs1.length = 2) ∧
        rest.length = 4 ∧ rest.all isDigitChar then
      some (digitsVal digs1, digitsVal rest)
    else none
  | [] => none

/-- `parse_month_string` (invoice_utils.py 48-79).  Month names are matched
by case-insensitive 3-letter prefix, first match wins; the two input shapes
are disjoint, so trying shape 2 after a failed month-name search matches
the source's fall-through. -/
def parse_month_string (s : String) : Option MonthInfo :=
  if s = "" then none
  else
    let l := stripL s.data
    let first :=
      match parseMonthShape1 l with
      | some (mon, yr) =>
        match (List.range 12).find? (fun idx =>
            startsWithL (lowerStr ((MONTHS.getD idx "").data)) (lowerStr (mon.take 3))) with
        | some idx => some (⟨yr, MONTHS.getD idx "", lastDayOfMonth yr idx, idx⟩ : MonthInfo)
        | none => none
      | none => none
    match first with
    | some mi => some mi
    | none =>
      match parseMonthShape2 l with
      | some (m, yr) =>
        if 1 ≤ m ∧ m ≤ 12 then
          some ⟨yr, MONTHS.getD (m - 1) "", lastDayOfMonth yr (m - 1), m - 1⟩
        else none
      | none => none

/-- Zero-padded two-digit rendering (`%d`, `%m`). -/
def formatTwo (n : ℕ) : String := if n < 10 then "0" ++ toString n else toString n

/-- `strftime('%d/%m/%Y')`. -/
def formatDateDMY (d m y : ℕ) : String :=
  formatTwo d ++ "/" ++ formatTwo m ++ "/" ++ toString y

/-- `str(...)` of a two-fractional-digit `Decimal`: sign, integer part,
point, two fraction digits. -/
def formatQ2 (q : ℚ) : String :=
  let k := halfUpZ (100 * q)
  let n := k.natAbs
  (if k < 0 then "-" else "") ++ toString (n / 100) ++ "." ++ formatTwo (n % 100)

/-- `sme, course = key.split('|', 1)`: split at the first `|`; `none`
embeds the `ValueError` Python raises when the key has no `|`. -/
def splitPipe1 (s : String) : Option (String × String) :=
  let pre := s.data.takeWhile (fun c => !decide (c = '|'))
  let rest := s.data.dropWhile (fun c => !decide (c = '|'))
  match rest with
  | [] => none
  | _ :: post => some (⟨pre⟩, ⟨post⟩)

/-- `Option`-valued map that aborts at the first failure (the Python loop
raises at the first bad element). -/
def optionMapList {α β : Type} (f : α → Option β) : List α → Option (List β)
  | [] => some []
  | a :: l =>
    match f a with
    | none => none
    | some b =>
      match optionMapList f l with
      | none => none
      | some bs => some (b :: bs)

/-- The `period` string of `build_master_rows` (invoice_utils.py 213-217). -/
def periodStrOf (selected : String) : String :=
  match parse_month_string selected with
  | some mi =>
    "1 " ++ mi.monthName ++ " - " ++ toString mi.lastDay ++ " " ++ mi.monthName ++ " " ++
      toString mi.year
  | none => selected

/-- The `invoice_dated` string of `build_master_rows` (invoice_utils.py
214-218); the fallback is `datetime.now().strftime('%d/%m/%Y')`, passed in. -/
def invoiceDatedOf (selected nowDMYslash : String) : String :=
  match parse_month_string selected with
  | some mi => formatDateDMY mi.lastDay (mi.midx + 1) mi.year
  | none => nowDMYslash

/-- One appended row of `build_master_rows` (invoice_utils.py 222-234). -/
def masterRowOf (selected period invoiceLastDate invoiceDated : String)
    (p : String × ℚ) : Option (List String) :=
  (splitPipe1 p.1).map (fun sc =>
    [selected, sc.1, sc.2, "", formatQ2 (round2_decimal p.2), period, invoiceLastDate,
     "", invoiceDated, ""])

/-- `build_master_rows` (invoice_utils.py 211-235).  `datetime.now()` is
impure; its two renderings (`%d %m %Y` and `%d/%m/%Y`) are passed in as
`nowDMYspace` / `nowDMYslash`. -/
def build_master_rows (totals : List (String × ℚ)) (selected : String)
    (nowDMYspace nowDMYslash : String) : Option (List (List String)) :=
  optionMapList
    (masterRowOf selected (periodStrOf selected) nowDMYspace (invoiceDatedOf selected nowDMYslash))
    totals

/-! ### Key uniqueness of the totals dict and the key round-trip (claim C6) -/

theorem upsertAdd_fst {κ : Type} [DecidableEq κ] :
    ∀ (l : List (κ × ℚ)) (k : κ) (a : ℚ),
    (upsertAdd l k a).map Prod.fst =
      if k ∈ l.map Prod.fst then l.map Prod.fst else l.map Prod.fst ++ [k] := by
  intro l k a
  induction l with
  | nil => simp [upsertAdd]
  | cons p rest ih =>
    obtain ⟨k', v⟩ := p
    by_cases h : k' = k
    · subst h
      simp [upsertAdd]
    · simp only [upsertAdd, if_neg h, List.map_cons, ih]
      by_cases hm : k ∈ rest.map Prod.fst
      · rw [if_pos hm, if_pos (by simp [hm])]
      · rw [if_neg hm, if_neg (by simp [hm, Ne.symm h])]
        simp

theorem upsertAdd_nodup {κ : Type} [DecidableEq κ] (l : List (κ × ℚ)) (k : κ) (a : ℚ)
    (h : (l.map Prod.fst).Nodup) : ((upsertAdd l k a).map Prod.fst).Nodup := by
  rw [upsertAdd_fst]
  split
  · exact h
  · next hm =>
    refine List.Nodup.append h (List.nodup_singleton k) ?_
    intro x hx hk
    simp only [List.mem_singleton] at hk
    subst hk
    exact hm hx

theorem effortRowStep_nodup {selected course : String} {colMonth : Option ℕ}
    {colSme colAmt : ℕ} {tot tot2 : List (String × ℚ)} {row : List String}
    (h : effortRowStep selected course colMonth colSme colAmt tot row = some tot2)
    (hn : (tot.map Prod.fst).Nodup) : (tot2.map Prod.fst).Nodup := by
  unfold effortRowStep at h
  cases hm : monthCellIU row colMonth with
  | none => rw [hm] at h; cases h
  | some mc =>
    rw [hm] at h
    dsimp only at h
    by_cases h1 : mc ≠ "" ∧ stripS mc ≠ stripS selected
    · rw [if_pos h1] at h
      cases h
      exact hn
    · rw [if_neg h1] at h
      by_cases h2 : stripS (row.getD colSme "") = ""
      · rw [if_pos h2] at h
        cases h
        exact hn
      · rw [if_neg h2] at h
        cases h
        exact upsertAdd_nodup _ _ _ hn

theorem foldRows_nodup {selected course : String} {colMonth : Option ℕ} {colSme colAmt : ℕ} :
    ∀ {rows : List (List String)} {tot tot2 : List (String × ℚ)},
    rows.foldlM (effortRowStep selected course colMonth colSme colAmt) tot = some tot2 →
    (tot.map Prod.fst).Nodup → (tot2.map Prod.fst).Nodup := by
  intro rows
  induction rows with
  | nil =>
    intro tot tot2 h hn
    simp only [List.foldlM_nil] at h
    cases h
    exact hn
  | cons r rs ih =>
    intro tot tot2 h hn
    simp only [List.foldlM_cons] at h
    cases hstep : effortRowStep selected course colMonth colSme colAmt tot r with
    | none => rw [hstep] at h; cases h
    | some tmid =>
      rw [hstep] at h
      exact ih h (effortRowStep_nodup hstep hn)

theorem processEffortTable_nodup {selected : String} {tot tot2 : List (String × ℚ)}
    {t : SheetTable} (h : processEffortTable selected tot t = some tot2)
    (hn : (tot.map Prod.fst).Nodup) : (tot2.map Prod.fst).Nodup := by
  unfold processEffortTable at h
  split at h
  · cases h; exact hn
  · split at h
    · cases h; exact hn
    · dsimp only at h
      split at h
      · exact foldRows_nodup h hn
      · cases h; exact hn

theorem foldTables_nodup {selected : String} :
    ∀ {tables : List SheetTable} {tot tot2 : List (String × ℚ)},
    tables.foldlM (processEffortTable selected) tot = some tot2 →
    (tot.map Prod.fst).Nodup → (tot2.map Prod.fst).Nodup := by
  intro tables
  induction tables with
  | nil =>
    intro tot tot2 h hn
    simp only [List.foldlM_nil] at h
    cases h
    exact hn
  | cons t ts ih =>
    intro tot tot2 h hn
    simp only [List.foldlM_cons] at h
    cases hstep : processEffortTable selected tot t with
    | none => rw [hstep] at h; cases h
    | some tmid =>
      rw [hstep] at h
      exact ih h (processEffortTable_nodup hstep hn)

theorem aggregate_nodup {tables : List SheetTable} {selected : String}
    {tot : List (String × ℚ)} (h : aggregate_from_effort tables selected = some tot) :
    (tot.map Prod.fst).Nodup := by
  unfold aggregate_from_effort at h
  cases hf : tables.foldlM (processEffortTable selected) [] with
  | none => rw [hf] at h; cases h
  | some raw =>
    rw [hf] at h
    simp only [Option.map_some'] at h
    cases h
    have := foldTables_nodup hf (by simp)
    rwa [List.map_map, show (Prod.fst ∘ fun p : String × ℚ => (p.1, round2_decimal p.2)) =
      Prod.fst from funext (fun p => rfl)]

theorem takeWhile_append_all {p : Char → Bool} :
    ∀ {l₁ l₂ : List Char}, (∀ c ∈ l₁, p c = true) →
    (l₁ ++ l₂).takeWhile p = l₁ ++ l₂.takeWhile p := by
  intro l₁ l₂
  induction l₁ with
  | nil => intro _; rfl
  | cons a t ih =>
    intro h
    have ha : p a = true := h a (by simp)
    simp only [List.cons_append, List.takeWhile_cons, ha, if_true]
    rw [ih (fun c hc => h c (by simp [hc]))]

theorem dropWhile_append_all {p : Char → Bool} :
    ∀ {l₁ l₂ : List Char}, (∀ c ∈ l₁, p c = true) →
    (l₁ ++ l₂).dropWhile p = l₂.dropWhile p := by
  intro l₁ l₂
  induction l₁ with
  | nil => intro _; rfl
  | cons a t ih =>
    intro h
    have ha : p a = true := h a (by simp)
    simp only [List.cons_append, List.dropWhile_cons, ha, if_true]
    exact ih (fun c hc => h c (by simp [hc]))

theorem splitPipe1_mkKey (s c : String) (h : '|' ∉ s.data) :
    splitPipe1 (mkKey s c) = some (s, c) := by
  have hall : ∀ d ∈ s.data, (!decide (d = '|')) = true := by
    intro d hd
    simp only [Bool.not_eq_true']
    exact decide_eq_false (fun he => h (he ▸ hd))
  have hdata : (mkKey s c).data = s.data ++ '|' :: c.data := by
    show (s ++ "|" ++ c).data = _
    rw [String.data_append, String.data_append]
    simp
  unfold splitPipe1
  rw [hdata, takeWhile_append_all hall, dropWhile_append_all hall]
  simp only [List.takeWhile_cons, List.dropWhile_cons]
  norm_num

theorem mkKey_inj {s1 c1 s2 c2 : String} (h1 : '|' ∉ s1.data) (h2 : '|' ∉ s2.data)
    (he : mkKey s1 c1 = mkKey s2 c2) : s1 = s2 ∧ c1 = c2 := by
  have := (splitPipe1_mkKey s1 c1 h1).symm.trans (he ▸ splitPipe1_mkKey s2 c2 h2)
  simp only [Option.some.injEq, Prod.mk.injEq] at this
  exact this

theorem optionMapList_getD {α β : Type} (f : α → Option β) (dA : α) (dB : β) :
    ∀ (l : List α) (r : List β), optionMapList f l = some r →
    r.length = l.length ∧ ∀ i, i < l.length → f (l.getD i dA) = some (r.getD i dB) := by
  intro l
  induction l with
  | nil =>
    intro r h
    simp only [optionMapList] at h
    cases h
    exact ⟨rfl, fun i hi => absurd hi (by simp)⟩
  | cons a t ih =>
    intro r h
    simp only [optionMapList] at h
    cases hfa : f a with
    | none => rw [hfa] at h; cases h
    | some b =>
      rw [hfa] at h
      cases hrec : optionMapList f t with
      | none => rw [hrec] at h; cases h
      | some bs =>
        rw [hrec] at h
        cases h
        obtain ⟨hlen, hget⟩ := ih bs hrec
        refine ⟨by simp [hlen], ?_⟩
        intro i hi
        cases i with
        | zero => simpa using hfa
        | succ j =>
          simp only [List.getD_cons_succ]
          exact hget j (by simpa using hi)

/-- Counterexample to claim C6 as stated: the totals dict is keyed by the
string `sme + "|" + course`, so the two distinct (trimmed instructor,
category) pairs `("a|Q", "9x")` and `("a", "Q|9x")` — both arising from
real tables via the classifier — encode to the same key `"a|Q|9x"` and are
merged into one total; the row builder then splits at the first `|` and
emits a row with instructor `"a"`, so no row carries instructor `"a|Q"`. -/
theorem C6_aggregate_key_counterexample :
    friendly_course_name "master 9x" = "9x" ∧
    friendly_course_name "master q|9x" = "Q|9x" ∧
    aggregate_from_effort
        [⟨"master 9x", [["Month", "SME", "Amount"], ["Sep", " a|Q ", "5"]]⟩,
         ⟨"master q|9x", [["Month", "SME", "Amount"], ["Sep", "a", "7"]]⟩]
        "Sep" = some [("a|Q|9x", 12)] ∧
    build_master_rows [("a|Q|9x", 12)] "Sep" "01 10 2025" "30/09/2025" =
      some [["Sep", "a", "Q|9x", "", "12.00", "Sep", "01 10 2025", "", "30/09/2025", ""]] := by
  refine ⟨by decide, by decide, by with_unfolding_all decide, by with_unfolding_all decide⟩

/-- Claim C6 (amended): aggregation yields exactly one total per key string
`trimmedInstructor|category` (the key list is duplicate-free), and the
builder emits exactly one row per key (same length, in order).  The
key encoding is injective — and the builder's split at the first `|`
recovers exactly the original (instructor, category) pair — only for
instructor strings that do not themselves contain `|`; distinct pairs whose
encodings coincide are merged (see the counterexample). -/
theorem C6_aggregate_key_roundtrip
    (tables : List SheetTable) (selected : String) (tot : List (String × ℚ))
    (hagg : aggregate_from_effort tables selected = some tot)
    (sel2 now1 now2 : String) (rws : List (List String))
    (hb : build_master_rows tot sel2 now1 now2 = some rws) :
    (tot.map Prod.fst).Nodup ∧
    rws.length = tot.length ∧
    (∀ s1 c1 s2 c2 : String, '|' ∉ s1.data → '|' ∉ s2.data →
      mkKey s1 c1 = mkKey s2 c2 → s1 = s2 ∧ c1 = c2) ∧
    (∀ i, i < tot.length → ∀ s c : String, '|' ∉ s.data →
      (tot.getD i ("", 0)).1 = mkKey s c →
      (rws.getD i []).getD 1 "" = s ∧ (rws.getD i []).getD 2 "" = c) := by
  unfold build_master_rows at hb
  obtain ⟨hlen, hget⟩ := optionMapList_getD
    (masterRowOf sel2 (periodStrOf sel2) now1 (invoiceDatedOf sel2 now2))
    ("", (0 : ℚ)) ([] : List String) tot rws hb
  refine ⟨aggregate_nodup hagg, hlen, fun s1 c1 s2 c2 h1 h2 he => mkKey_inj h1 h2 he, ?_⟩
  intro i hi s c hs hkey
  have hrow := hget i hi
  unfold masterRowOf at hrow
  rw [hkey, splitPipe1_mkKey s c hs] at hrow
  simp only [Option.map_some', Option.some.injEq] at hrow
  rw [← hrow]
  exact ⟨rfl, rfl⟩

/-- Witness for C6 (amended) at a concrete aggregation run and build. -/
theorem C6_aggregate_key_roundtrip_witness :
    (([("Jane Doe|Data Science", (100 : ℚ))]).map Prod.fst).Nodup ∧
    (([["Sep", "Jane Doe", "Data Science", "", "100.00", "Sep", "n1", "", "n2",
        ""]].getD 0 []).getD 1 "" = "Jane Doe" ∧
      ([["Sep", "Jane Doe", "Data Science", "", "100.00", "Sep", "n1", "", "n2",
        ""]].getD 0 []).getD 2 "" = "Data Science") := by
  have H := C6_aggregate_key_roundtrip
    [⟨"Master DS", [["Month", "SME", "Final Amount"], ["", "Jane Doe", "100"]]⟩]
    "September 2025" [("Jane Doe|Data Science", 100)] (by with_unfolding_all decide)
    "Sep" "n1" "n2"
    [["Sep", "Jane Doe", "Data Science", "", "100.00", "Sep", "n1", "", "n2", ""]]
    (by with_unfolding_all decide)
  exact ⟨H.1, H.2.2.2 0 (by decide) "Jane Doe" "Data Science" (by decide) (by decide)⟩

/-! ## Contact registry (claims C3, C4)

`build_sme_links_map` builds one record per normalized instructor name.  The
Python record is a dict holding the reserved keys `"__any"`, `"__email"`,
`"__courses"` alongside course-name keys; it is embedded as a structure with
a course-to-URL association list.  (A ledger category literally named
`"__any"`, `"__email"` or `"__courses"` would collide with the reserved keys
in Python; the classifier never produces such names — its outputs contain no
underscores — and the embedding assumes categories are not the reserved
names.) -/

structure SmeRec where
  any : List String
  email : String
  courses : List String
  perCourse : List (String × String)
deriving DecidableEq

/-- First-match lookup in an insertion-ordered dict. -/
def lookupA {α : Type} : List (String × α) → String → Option α
  | [], _ => none
  | (k, v) :: rest, key => if k = key then some v else lookupA rest key

/-- `d[k] = v` on an insertion-ordered dict: replace in place, else append. -/
def updateA {α : Type} : List (String × α) → String → α → List (String × α)
  | [], k, v => [(k, v)]
  | (k', v') :: rest, k, v =>
    if k' = k then (k, v) :: rest else (k', v') :: updateA rest k v

/-- Case-insensitive prefix test. -/
def ciStartsWith (l p : List Char) : Bool := startsWithL (lowerStr l) (lowerStr p)

/-- `re.match(r'^https?:\/\/', cell.strip(), re.I)` (invoice_utils.py 200). -/
def isUrlCell (c : String) : Bool :=
  ciStartsWith (stripL c.data) ("http://".data) || ciStartsWith (stripL c.data) ("https://".data)

/-- The `for cell in r[2:10]` URL scan of invoice_utils.py 197-201: first
matching cell, stripped; empty string when none. -/
def findUrlIU (cells : List String) : String :=
  match cells.find? isUrlCell with
  | some c => stripS c
  | none => ""

/-- The record mutations one registry row performs (invoice_utils.py
194-207): set the email only when unset (first-seen wins), file the first
URL of cells 2..9 under the table's course — a plain dict assignment,
overwriting any earlier URL for that course — append it to the any-list,
and record the course name once. -/
def smeRecUpdate (course : String) (r : List String) (rcd0 : SmeRec) : SmeRec :=
  let email := r.getD 1 ""
  let rcd1 := if email ≠ "" ∧ rcd0.email = "" then { rcd0 with email := stripS email } else rcd0
  let url := findUrlIU ((r.drop 2).take 8)
  let rcd2 :=
    if url ≠ "" then
      { rcd1 with perCourse := updateA rcd1.perCourse course url, any := rcd1.any ++ [url] }
    else rcd1
  if course ∈ rcd2.courses then rcd2 else { rcd2 with courses := rcd2.courses ++ [course] }

/-- One registry row of `build_sme_links_map` (invoice_utils.py 187-207):
skip blank names, ensure the record exists, then apply the row's record
mutations in place. -/
def smeRowStep (course : String) (m : List (String × SmeRec)) (r : List String) :
    List (String × SmeRec) :=
  let rawName := r.getD 0 ""
  if stripS rawName = "" then m
  else
    let k := normalize_text rawName
    let m1 := if (lookupA m k).isSome then m else m ++ [(k, ⟨[], "", [], []⟩)]
    updateA m1 k (smeRecUpdate course r ((lookupA m1 k).getD ⟨[], "", [], []⟩))

/-- One registry table (invoice_utils.py 180-207): skip the table named
exactly "onboarded" (case-insensitive) and tables without data rows;
`course = friendly_course_name(title)` is computed inside the row loop in
the source but is the same pure value for every row. -/
def processSmeTable (m : List (String × SmeRec)) (t : SheetTable) :
    List (String × SmeRec) :=
  if (⟨lowerStr t.title.data⟩ : String) = "onboarded" then m
  else if t.vals.length < 2 then m
  else (t.vals.tail).foldl (smeRowStep (friendly_course_name t.title)) m

/-- `build_sme_links_map` (invoice_utils.py 177-208).  The
run_create_invoices.py variant (lines 168-225) differs only in its URL scan
(column H only, bare "http" prefix) and classifier variant; its email and
per-course assignment statements are identical. -/
def build_sme_links_map (tables : List SheetTable) : List (String × SmeRec) :=
  tables.foldl processSmeTable []

theorem lookupA_updateA_eq {α : Type} :
    ∀ (m : List (String × α)) (k : String) (v : α),
    lookupA (updateA m k v) k = some v := by
  intro m k v
  induction m with
  | nil => simp [updateA, lookupA]
  | cons p rest ih =>
    obtain ⟨k', v'⟩ := p
    by_cases h : k' = k
    · simp [updateA, if_pos h, lookupA]
    · simp only [updateA, if_neg h, lookupA]
      exact ih

theorem lookupA_updateA_ne {α : Type} :
    ∀ (m : List (String × α)) (k : String) (v : α) (k2 : String), k ≠ k2 →
    lookupA (updateA m k v) k2 = lookupA m k2 := by
  intro m k v k2 hne
  induction m with
  | nil => simp [updateA, lookupA, if_neg hne]
  | cons p rest ih =>
    obtain ⟨k', v'⟩ := p
    by_cases h : k' = k
    · simp only [updateA, if_pos h, lookupA]
      rw [if_neg hne, if_neg (h ▸ hne)]
    · simp only [updateA, if_neg h, lookupA]
      by_cases h2 : k' = k2
      · rw [if_pos h2, if_pos h2]
      · rw [if_neg h2, if_neg h2]
        exact ih

theorem lookupA_append_of_some {α : Type} {m : List (String × α)} {k2 : String} {v : α}
    (h : lookupA m k2 = some v) (l2 : List (String × α)) :
    lookupA (m ++ l2) k2 = some v := by
  induction m with
  | nil => simp [lookupA] at h
  | cons p rest ih =>
    obtain ⟨k', v'⟩ := p
    simp only [lookupA, List.cons_append] at h ⊢
    by_cases hk : k' = k2
    · rwa [if_pos hk] at h ⊢
    · rw [if_neg hk] at h ⊢
      exact ih h

theorem lookupA_append_of_none {α : Type} {m : List (String × α)} {k2 : String}
    (h : lookupA m k2 = none) (l2 : List (String × α)) :
    lookupA (m ++ l2) k2 = lookupA l2 k2 := by
  induction m with
  | nil => rfl
  | cons p rest ih =>
    obtain ⟨k', v'⟩ := p
    simp only [lookupA, List.cons_append] at h ⊢
    by_cases hk : k' = k2
    · rw [if_pos hk] at h; cases h
    · rw [if_neg hk] at h ⊢
      exact ih h

theorem smeRowStep_lookup_ne (course : String) (m : List (String × SmeRec))
    (r : List String) (k2 : String) (h : normalize_text (r.getD 0 "") ≠ k2) :
    lookupA (smeRowStep course m r) k2 = lookupA m k2 := by
  unfold smeRowStep
  by_cases hb : stripS (r.getD 0 "") = ""
  · rw [if_pos hb]
  · rw [if_neg hb]
    dsimp only
    rw [lookupA_updateA_ne _ _ _ _ h]
    split
    · rfl
    · cases hker : lookupA m k2 with
      | some v => exact lookupA_append_of_some hker _
      | none =>
        rw [lookupA_append_of_none hker]
        simp only [lookupA]
        rw [if_neg h]

theorem smeRecUpdate_email (course : String) (r : List String) (rcd : SmeRec)
    (he : rcd.email ≠ "") : (smeRecUpdate course r rcd).email = rcd.email := by
  unfold smeRecUpdate
  dsimp only
  have hcond : ¬(r.getD 1 "" ≠ "" ∧ rcd.email = "") := fun hc => he hc.2
  simp only [if_neg hcond]
  by_cases hu : findUrlIU ((r.drop 2).take 8) ≠ ""
  · simp only [if_pos hu]
    split <;> rfl
  · simp only [if_neg hu]
    split <;> rfl

theorem smeRecUpdate_overwrite (course : String) (r : List String) (rcd : SmeRec)
    (hu : findUrlIU ((r.drop 2).take 8) ≠ "") :
    lookupA (smeRecUpdate course r rcd).perCourse course =
      some (findUrlIU ((r.drop 2).take 8)) ∧
    (smeRecUpdate course r rcd).any.getLast? = some (findUrlIU ((r.drop 2).take 8)) := by
  unfold smeRecUpdate
  dsimp only
  simp only [if_pos hu]
  constructor
  · split <;> split <;> exact lookupA_updateA_eq _ _ _
  · split <;> split <;> exact List.getLast?_concat _

theorem smeRowStep_email (course : String) (m : List (String × SmeRec)) (r : List String)
    (k : String) (rcd : SmeRec) (hk : lookupA m k = some rcd) (he : rcd.email ≠ "") :
    ∃ rcd2, lookupA (smeRowStep course m r) k = some rcd2 ∧ rcd2.email = rcd.email := by
  by_cases hkey : normalize_text (r.getD 0 "") = k
  · unfold smeRowStep
    by_cases hb : stripS (r.getD 0 "") = ""
    · rw [if_pos hb]
      exact ⟨rcd, hk, rfl⟩
    · rw [if_neg hb]
      dsimp only
      rw [hkey]
      simp only [hk, Option.isSome_some, if_true, Option.getD_some]
      exact ⟨_, lookupA_updateA_eq _ _ _, smeRecUpdate_email course r rcd he⟩
  · rw [smeRowStep_lookup_ne course m r k hkey]
    exact ⟨rcd, hk, rfl⟩

theorem smeRows_email (course : String) :
    ∀ (rows : List (List String)) (m : List (String × SmeRec)) (k : String) (rcd : SmeRec),
    lookupA m k = some rcd → rcd.email ≠ "" →
    ∃ rcd2, lookupA (rows.foldl (smeRowStep course) m) k = some rcd2 ∧
      rcd2.email = rcd.email := by
  intro rows
  induction rows with
  | nil => intro m k rcd hk _; exact ⟨rcd, hk, rfl⟩
  | cons r rs ih =>
    intro m k rcd hk he
    obtain ⟨rcd1, hk1, he1⟩ := smeRowStep_email course m r k rcd hk he
    obtain ⟨rcd2, hk2, he2⟩ := ih (smeRowStep course m r) k rcd1 hk1 (he1 ▸ he)
    exact ⟨rcd2, hk2, he2.trans he1⟩

theorem processSmeTable_email (t : SheetTable) (m : List (String × SmeRec))
    (k : String) (rcd : SmeRec) (hk : lookupA m k = some rcd) (he : rcd.email ≠ "") :
    ∃ rcd2, lookupA (processSmeTable m t) k = some rcd2 ∧ rcd2.email = rcd.email := by
  unfold processSmeTable
  split
  · exact ⟨rcd, hk, rfl⟩
  · split
    · exact ⟨rcd, hk, rfl⟩
    · exact smeRows_email _ _ m k rcd hk he

theorem smeTables_email :
    ∀ (tables : List SheetTable) (m : List (String × SmeRec)) (k : String) (rcd : SmeRec),
    lookupA m k = some rcd → rcd.email ≠ "" →
    ∃ rcd2, lookupA (tables.foldl processSmeTable m) k = some rcd2 ∧
      rcd2.email = rcd.email := by
  intro tables
  induction tables with
  | nil => intro m k rcd hk _; exact ⟨rcd, hk, rfl⟩
  | cons t ts ih =>
    intro m k rcd hk he
    obtain ⟨rcd1, hk1, he1⟩ := processSmeTable_email t m k rcd hk he
    obtain ⟨rcd2, hk2, he2⟩ := ih (processSmeTable m t) k rcd1 hk1 (he1 ▸ he)
    exact ⟨rcd2, hk2, he2.trans he1⟩

/-- Counterexample to claim C4 as stated: two registry rows for the same
identity in the same course table carry different URLs; after the build the
course URL is the SECOND row's URL — the plain dict assignment overwrote
the first-seen URL for that category. -/
theorem C4_registry_first_seen_counterexample :
    lookupA
      (build_sme_links_map
        [⟨"master x",
          [["Name", "Email", "c3", "c4", "c5", "c6", "c7", "URL"],
           ["Jane", "", "", "", "", "", "", "http://a"],
           ["Jane", "", "", "", "", "", "", "http://b"]]⟩])
      "jane" =
      some ⟨["http://a", "http://b"], "", ["X"], [("X", "http://b")]⟩ ∧
    ("http://b" : String) ≠ "http://a" := by
  exact ⟨by decide, by decide⟩

/-- Claim C4 (amended): the email of a contact record is first-seen-wins —
once non-empty it survives every later registry row and table unchanged.
The per-category URL is NOT first-seen-wins: processing a row whose found
URL is non-empty files that URL under the table's course unconditionally,
overwriting any URL previously filed there (last-seen wins). -/
theorem C4_registry_first_seen_amended
    (tables : List SheetTable) (m : List (String × SmeRec)) (k : String) (rcd : SmeRec)
    (hk : lookupA m k = some rcd) (he : rcd.email ≠ "")
    (course : String) (r : List String)
    (hb : stripS (r.getD 0 "") ≠ "") (hu : findUrlIU ((r.drop 2).take 8) ≠ "") :
    (∃ rcd2, lookupA (tables.foldl processSmeTable m) k = some rcd2 ∧
      rcd2.email = rcd.email) ∧
    (∃ rcd3, lookupA (smeRowStep course m r) (normalize_text (r.getD 0 "")) = some rcd3 ∧
      lookupA rcd3.perCourse course = some (findUrlIU ((r.drop 2).take 8)) ∧
      rcd3.any.getLast? = some (findUrlIU ((r.drop 2).take 8))) := by
  refine ⟨smeTables_email tables m k rcd hk he, ?_⟩
  unfold smeRowStep
  rw [if_neg hb]
  dsimp only
  obtain ⟨h1, h2⟩ := smeRecUpdate_overwrite course r
    ((lookupA
      (if (lookupA m (normalize_text (r.getD 0 ""))).isSome then m
       else m ++ [(normalize_text (r.getD 0 ""), ⟨[], "", [], []⟩)])
      (normalize_text (r.getD 0 ""))).getD ⟨[], "", [], []⟩) hu
  exact ⟨_, lookupA_updateA_eq _ _ _, h1, h2⟩

/-- Witness for C4 (amended): a registry with email already set keeps it
through a later table; a later row's URL replaces the earlier URL for the
same category. -/
theorem C4_registry_first_seen_amended_witness :
    (∃ rcd2, lookupA
        ([⟨"master x", [["N", "E"], ["Jane", "f@y"]]⟩].foldl processSmeTable
          [("jane", ⟨["http://a"], "e@x", ["X"], [("X", "http://a")]⟩)]) "jane" =
        some rcd2 ∧ rcd2.email = "e@x") ∧
    (∃ rcd3, lookupA
        (smeRowStep "X" [("jane", ⟨["http://a"], "e@x", ["X"], [("X", "http://a")]⟩)]
          ["Jane", "", "", "", "", "", "", "http://b"])
        (normalize_text (["Jane", "", "", "", "", "", "", "http://b"].getD 0 "")) =
        some rcd3 ∧
      lookupA rcd3.perCourse "X" =
        some (findUrlIU ((["Jane", "", "", "", "", "", "", "http://b"].drop 2).take 8)) ∧
      rcd3.any.getLast? =
        some (findUrlIU ((["Jane", "", "", "", "", "", "", "http://b"].drop 2).take 8))) := by
  exact C4_registry_first_seen_amended
    [⟨"master x", [["N", "E"], ["Jane", "f@y"]]⟩]
    [("jane", ⟨["http://a"], "e@x", ["X"], [("X", "http://a")]⟩)]
    "jane" ⟨["http://a"], "e@x", ["X"], [("X", "http://a")]⟩
    (by decide) (by decide) "X" ["Jane", "", "", "", "", "", "", "http://b"]
    (by decide) (by decide)

/-! ## Tracker-link and email population (claim C3) -/

/-- The per-row tracker cell of `populate_tracker_links_and_emails`
(invoice_utils.py 248-268): course-specific URL first, otherwise the FIRST
entry of the identity's any-list, otherwise the existing D cell. -/
def trackerCellIU (links : List (String × SmeRec)) (row : List String) : String :=
  let instr := row.getD 1 ""
  let course := row.getD 2 ""
  let found_url :=
    match lookupA links (normalize_text instr) with
    | some rcd =>
      match lookupA rcd.perCourse course with
      | some u => u
      | none =>
        match rcd.any with
        | u :: _ => u
        | [] => ""
    | none => ""
  if found_url ≠ "" then "=HYPERLINK(\"" ++ found_url ++ "\",\"Tracker Link\")"
  else
    let orig := row.getD 3 ""
    if orig ≠ "" then orig else ""

/-- The per-row email cell of invoice_utils.py 261-275. -/
def emailCellIU (links : List (String × SmeRec)) (row : List String) : String :=
  let found_email :=
    match lookupA links (normalize_text (row.getD 1 "")) with
    | some rcd => rcd.email
    | none => ""
  let existing := row.getD 9 ""
  if found_email ≠ "" ∧ stripS found_email ≠ stripS existing then found_email
  else if existing ≠ "" then existing else ""

/-- `populate_tracker_links_and_emails` (invoice_utils.py 238-279), reduced
to the two written-back columns (tracker D, email J); the returned counters
are not modeled.  `none` = fewer than two rows, nothing written. -/
def populate_tracker_links_and_emails (masterVals : List (List String))
    (links : List (String × SmeRec)) : Option (List String × List String) :=
  if masterVals.length < 2 then none
  else some ((masterVals.tail).map (trackerCellIU links),
             (masterVals.tail).map (emailCellIU links))

/-- The per-row tracker cell of the run_create_invoices.py variant (lines
268-293): course-specific URL only; the `if not found_url and
record.get("__any"): found_url = ""` statement is kept from the source —
it deliberately does NOT fall back to the any-list. -/
def trackerCellRun (links : List (String × SmeRec)) (row : List String) : String :=
  let instr := row.getD 1 ""
  let course := row.getD 2 ""
  let instr_norm := normalize_text instr
  let found_url :=
    if instr_norm ≠ "" then
      match lookupA links instr_norm with
      | some record =>
        let f1 := if course ≠ "" then (lookupA record.perCourse course).getD "" else ""
        if f1 = "" ∧ record.any ≠ [] then "" else f1
      | none => ""
    else ""
  if found_url ≠ "" then "=HYPERLINK(\"" ++ found_url ++ "\",\"Tracker Link\")"
  else
    let existing := row.getD 3 ""
    if existing ≠ "" then existing else ""

/-- The per-row email cell of run_create_invoices.py 294-300. -/
def emailCellRun (links : List (String × SmeRec)) (row : List String) : String :=
  let instr_norm := normalize_text (row.getD 1 "")
  let found_email :=
    if instr_norm ≠ "" then
      match lookupA links instr_norm with
      | some record => record.email
      | none => ""
    else ""
  let existing := row.getD 9 ""
  if found_email ≠ "" ∧ stripS found_email ≠ stripS existing then found_email
  else if existing ≠ "" then existing else ""

/-- `populate_tracker_links_and_emails` from run_create_invoices.py
(lines 249-320), reduced to the two written-back columns; the registry map
it builds inline is passed as `links`. -/
def populate_tracker_links_and_emails_run (masterVals : List (List String))
    (links : List (String × SmeRec)) : Option (List String × List String) :=
  if masterVals.length < 2 then none
  else some ((masterVals.tail).map (trackerCellRun links),
             (masterVals.tail).map (emailCellRun links))

/-- Counterexample to claim C3 as stated: the identity "jane" exists with a
URL filed only under "Data Science"; a ledger row with category
"Data Analytics" and a blank tracker cell receives a hyperlink to that URL
anyway in the invoice_utils variant — filled from the any-list — where the
claim requires the cell to stay blank. -/
theorem C3_link_specificity_counterexample :
    lookupA
        ([("jane", (⟨["http://ds"], "", ["Data Science"], [("Data Science", "http://ds")]⟩ :
          SmeRec))] : List (String × SmeRec)) "jane" =
      some ⟨["http://ds"], "", ["Data Science"], [("Data Science", "http://ds")]⟩ ∧
    lookupA ([("Data Science", "http://ds")] : List (String × String)) "Data Analytics" =
      none ∧
    populate_tracker_links_and_emails
        [["Month", "SME Name", "Course", "Tracker"],
         ["Sep", "Jane", "Data Analytics", ""]]
        [("jane", ⟨["http://ds"], "", ["Data Science"], [("Data Science", "http://ds")]⟩)] =
      some (["=HYPERLINK(\"http://ds\",\"Tracker Link\")"], [""]) ∧
    populate_tracker_links_and_emails_run
        [["Month", "SME Name", "Course", "Tracker"],
         ["Sep", "Jane", "Data Analytics", ""]]
        [("jane", ⟨["http://ds"], "", ["Data Science"], [("Data Science", "http://ds")]⟩)] =
      some ([""], [""]) := by
  exact ⟨by decide, by decide, by decide, by decide⟩

/-- Claim C3 (amended): when the row's identity is in the registry but has
no URL filed under the row's exact category, the run_create_invoices
variant leaves the tracker cell with its existing content (blank when
none) — it never falls back to another URL; the invoice_utils variant,
however, falls back to the FIRST entry of the identity's ordered any-list
whenever that list is non-empty, and only leaves the existing content when
the identity has no URLs at all. -/
theorem C3_link_specificity_amended (links : List (String × SmeRec)) (row : List String)
    (rcd : SmeRec) (hfound : lookupA links (normalize_text (row.getD 1 "")) = some rcd)
    (hnocat : lookupA rcd.perCourse (row.getD 2 "") = none) :
    (trackerCellRun links row = (if row.getD 3 "" ≠ "" then row.getD 3 "" else "")) ∧
    (rcd.any = [] →
      trackerCellIU links row = (if row.getD 3 "" ≠ "" then row.getD 3 "" else "")) ∧
    (∀ u us, rcd.any = u :: us → u ≠ "" →
      trackerCellIU links row = "=HYPERLINK(\"" ++ u ++ "\",\"Tracker Link\")") := by
  refine ⟨?_, ?_, ?_⟩
  · unfold trackerCellRun
    by_cases hn : normalize_text (row.getD 1 "") ≠ ""
    · simp only [if_pos hn, hfound, hnocat, Option.getD_none, ite_self]
      simp
    · simp only [if_neg hn]
      simp
  · intro ha
    unfold trackerCellIU
    simp only [hfound, hnocat, ha]
    simp
  · intro u us ha hu
    unfold trackerCellIU
    simp only [hfound, hnocat, ha]
    rw [if_pos hu]

/-- Witness for C3 (amended) at a concrete registry and ledger row. -/
theorem C3_link_specificity_amended_witness :
    trackerCellRun
        [("jane", ⟨["http://ds"], "", ["Data Science"], [("Data Science", "http://ds")]⟩)]
        ["Sep", "Jane", "Data Analytics", ""] =
      (if (["Sep", "Jane", "Data Analytics", ""].getD 3 "") ≠ ""
       then ["Sep", "Jane", "Data Analytics", ""].getD 3 "" else "") ∧
    trackerCellIU
        [("jane", ⟨["http://ds"], "", ["Data Science"], [("Data Science", "http://ds")]⟩)]
        ["Sep", "Jane", "Data Analytics", ""] =
      "=HYPERLINK(\"" ++ "http://ds" ++ "\",\"Tracker Link\")" := by
  have H := C3_link_specificity_amended
    [("jane", ⟨["http://ds"], "", ["Data Science"], [("Data Science", "http://ds")]⟩)]
    ["Sep", "Jane", "Data Analytics", ""]
    ⟨["http://ds"], "", ["Data Science"], [("Data Science", "http://ds")]⟩
    (by decide) (by decide)
  exact ⟨H.1, H.2.2 "http://ds" [] rfl (by decide)⟩

/-! ## Invoice number assignment (claims C1, C2)

Both assigners read the master and program blocks, build per-key maximum
issued numbers and program-row references, group qualifying master rows by
key, then assign consecutive numbers within each group.  The early returns
("empty" / "no_program_rows" / "no_matches") and a raised `IndexError` all
leave the sheet unwritten and are embedded as `none`. -/

/-- `index_of` inside `assign_invoice_numbers` (invoice_utils.py 292-298):
candidates outer, headers inner — the first candidate found anywhere wins,
at the earliest header position containing it. -/
def indexOfCands (hlist : List String) (candidates : List String) : Option ℕ :=
  candidates.findSome? (fun c => hlist.findIdx? (fun h => containsSub (lowerStr h.data) c.data))

/-- `re.search(r'(\d+)', s)`: the first maximal digit run. -/
def firstDigitRun : List Char → Option (List Char)
  | [] => none
  | c :: cs => if isDigitChar c then some (c :: cs.takeWhile isDigitChar) else firstDigitRun cs

/-- `int(m.group(1)) if m else 0`. -/
def extractInvNum (s : String) : ℕ :=
  match firstDigitRun s.data with
  | some ds => digitsVal ds
  | none => 0

/-- `if key not in prev_max or num > prev_max[key]: prev_max[key] = num`
(invoice_utils.py 324-325). -/
def upsertMaxIU : List (String × ℕ) → String → ℕ → List (String × ℕ)
  | [], k, num => [(k, num)]
  | (k0, v0) :: rest, k, num =>
    if k0 = k then (if num > v0 then (k0, num) :: rest else (k0, v0) :: rest)
    else (k0, v0) :: upsertMaxIU rest k num

/-- `prevMaxInvoice[key] = max(prevMaxInvoice.get(key, 0), num)`
(run_create_invoices.py 383). -/
def upsertMaxRun : List (String × ℕ) → String → ℕ → List (String × ℕ)
  | [], k, num => [(k, max 0 num)]
  | (k0, v0) :: rest, k, num =>
    if k0 = k then (k0, max v0 num) :: rest
    else (k0, v0) :: upsertMaxRun rest k num

/-- `d.setdefault(key, []).append(n)` on an insertion-ordered dict. -/
def appendRef : List (String × List ℕ) → String → ℕ → List (String × List ℕ)
  | [], k, n => [(k, [n])]
  | (k0, g0) :: rest, k, n =>
    if k0 = k then (k0, g0 ++ [n]) :: rest else (k0, g0) :: appendRef rest k n

/-- The program-store scan of invoice_utils.py 315-326: per key, the maximum
extracted number and the ordered matching 1-based sheet-row references. -/
def buildProgMaps (exact : Bool) (progSme progInv : ℕ) :
    ℕ → List (List String) → List (String × ℕ) × List (String × List ℕ) →
    List (String × ℕ) × List (String × List ℕ)
  | _, [], st => st
  | i, row :: rest, st =>
    let name := row.getD progSme ""
    if name = "" then buildProgMaps exact progSme progInv (i + 1) rest st
    else
      let key := if exact then name else normalize_text name
      let num := extractInvNum (row.getD progInv "")
      buildProgMaps exact progSme progInv (i + 1) rest
        (upsertMaxIU st.1 key num, appendRef st.2 key (i + 2))

/-- The program-store scan of run_create_invoices.py 369-384: exact raw-name
keys (rows blank after trimming skipped), running maximum. -/
def buildProgMapsRun (progSme progInv : ℕ) :
    ℕ → List (List String) → List (String × ℕ) × List (String × List ℕ) →
    List (String × ℕ) × List (String × List ℕ)
  | _, [], st => st
  | i, row :: rest, st =>
    let rawName := row.getD progSme ""
    if stripS rawName = "" then buildProgMapsRun progSme progInv (i + 1) rest st
    else
      let num := extractInvNum (row.getD progInv "")
      buildProgMapsRun progSme progInv (i + 1) rest
        (upsertMaxRun st.1 rawName num, appendRef st.2 rawName (i + 2))

/-- The master-row grouping of invoice_utils.py 328-339: the month filter
applies only when both a filter and a month column exist; rows with blank
names or keys absent from `prev_max` are skipped. -/
def buildGroupsIU (exact : Bool) (colMonth : Option ℕ) (colSme : ℕ)
    (monthFilter : Option String) (prevMax : List (String × ℕ)) :
    ℕ → List (List String) → List (String × List ℕ) → List (String × List ℕ)
  | _, [], gs => gs
  | i, row :: rest, gs =>
    let next := buildGroupsIU exact colMonth colSme monthFilter prevMax (i + 1) rest
    if (monthFilter.getD "") ≠ "" ∧ colMonth.isSome ∧
        stripS (row.getD (colMonth.getD 0) "") ≠ stripS (monthFilter.getD "") then
      next gs
    else
      let name := row.getD colSme ""
      if name = "" then next gs
      else
        let key := if exact then name else normalize_text name
        if (lookupA prevMax key).isSome then next (appendRef gs key (i + 2))
        else next gs

/-- The master-row grouping of run_create_invoices.py 386-397: the month
filter applies only when a filter is given and the row is long enough to
hold the month column. -/
def buildGroupsRun (colMonth colSme : ℕ) (monthFilter : Option String)
    (prevMax : List (String × ℕ)) :
    ℕ → List (List String) → List (String × List ℕ) → List (String × List ℕ)
  | _, [], gs => gs
  | i, row :: rest, gs =>
    let next := buildGroupsRun colMonth colSme monthFilter prevMax (i + 1) rest
    if (monthFilter.getD "") ≠ "" ∧ colMonth < row.length ∧
        stripS (row.getD colMonth "") ≠ stripS (monthFilter.getD "") then
      next gs
    else
      let rawSme := row.getD colSme ""
      if rawSme = "" then next gs
      else if (lookupA prevMax rawSme).isSome then next (appendRef gs rawSme (i + 2))
      else next gs

/-- `f"Invoice # {n}"`. -/
def invString (n : ℕ) : String := "Invoice # " ++ toString n

def joinComma : List ℕ → String
  | [] => ""
  | [n] => toString n
  | n :: rest => toString n ++ "," ++ joinComma rest

/-- `f"MatchedProgramRows:{','.join(map(str,refs)) or 'none'}; PrevInv:{pm};
Assigned:{n}"`. -/
def auditString (refs : List ℕ) (pm n : ℕ) : String :=
  "MatchedProgramRows:" ++ (if joinComma refs = "" then "none" else joinComma refs) ++
    "; PrevInv:" ++ toString pm ++ "; Assigned:" ++ toString n

/-- The inner assignment loop shared by both variants (invoice_utils.py
350-359, run_create_invoices.py 409-419): walk one group's sheet rows in
order; a non-empty existing invoice cell is skipped without consuming a
number unless `force`; otherwise write the next number (and the audit
string when an audit column is tracked) and advance. -/
def assignRows (hasAudit force : Bool) (refs : List ℕ) (pm : ℕ) :
    ℕ → List ℕ → List String → List String → ℕ → List String × List String × ℕ
  | _, [], inv, aud, cnt => (inv, aud, cnt)
  | nextNum, sr :: rest, inv, aud, cnt =>
    let idx := sr - 2
    let existing := inv.getD idx ""
    if existing ≠ "" ∧ ¬force then
      assignRows hasAudit force refs pm nextNum rest inv aud cnt
    else
      assignRows hasAudit force refs pm (nextNum + 1) rest
        (inv.set idx (invString nextNum))
        (if hasAudit then aud.set idx (auditString refs pm nextNum) else aud)
        (cnt + 1)

/-- The outer group loop (invoice_utils.py 347-359): each key starts at
`prev_max.get(key, 0) + 1`. -/
def assignAllGroups (hasAudit force : Bool) (prevMax : List (String × ℕ))
    (progRefs : List (String × List ℕ)) :
    List (String × List ℕ) → List String → List String → ℕ →
    List String × List String × ℕ
  | [], inv, aud, cnt => (inv, aud, cnt)
  | (k, rowNums) :: rest, inv, aud, cnt =>
    let out := assignRows hasAudit force ((lookupA progRefs k).getD [])
      ((lookupA prevMax k).getD 0) ((lookupA prevMax k).getD 0 + 1) rowNums inv aud cnt
    assignAllGroups hasAudit force prevMax progRefs rest out.1 out.2.1 out.2.2

/-- Cell access `row[i] if i < len(row) else ""` for a possibly negative
Python index: `-1` wraps to the last cell and raises `IndexError` (`none`)
on an empty row. -/
def pyCellInt (row : List String) (i : Int) : Option String :=
  if i < (row.length : Int) then
    (if 0 ≤ i then some (row.getD i.toNat "")
     else if 0 ≤ (row.length : Int) + i then some (row.getD ((row.length : Int) + i).toNat "")
     else none)
  else some ""

/-- The master-sheet column indices of invoice_utils.py 299-304:
(month, sme with fallback 1, invoice with fallback 7, audit). -/
def masterColsIU (header : List String) : Option ℕ × ℕ × ℕ × Option ℕ :=
  (indexOfCands header ["month"],
   (indexOfCands header ["sme", "instructor", "name"]).getD 1,
   (indexOfCands header ["invoice number", "invoice"]).getD 7,
   indexOfCands header ["invoice audit"])

/-- The program-sheet column indices of invoice_utils.py 311-314:
(sme with fallback 2, invoice with fallback 1). -/
def progColsIU (progHeader : List String) : ℕ × ℕ :=
  ((indexOfCands progHeader ["sme name", "sme name / company name", "company name"]).getD 2,
   (indexOfCands progHeader ["invoice number", "invoice"]).getD 1)

/-- `prev_max` and `prog_refs` of the invoice_utils assigner, from the raw
program block. -/
def progMapsOf (progVals : List (List String)) (exact : Bool) :
    List (String × ℕ) × List (String × List ℕ) :=
  buildProgMaps exact (progColsIU (progVals.headD [])).1 (progColsIU (progVals.headD [])).2
    0 progVals.tail ([], [])

/-- `groups` of the invoice_utils assigner, from the raw blocks. -/
def groupsOfIU (masterVals progVals : List (List String)) (monthFilter : Option String)
    (exact : Bool) : List (String × List ℕ) :=
  buildGroupsIU exact (masterColsIU (masterVals.headD [])).1
    (masterColsIU (masterVals.headD [])).2.1 monthFilter (progMapsOf progVals exact).1
    0 masterVals.tail []

/-- `invoice_out` initial contents (invoice_utils.py 344). -/
def invInitIU (masterVals : List (List String)) : List String :=
  masterVals.tail.map (fun r => r.getD (masterColsIU (masterVals.headD [])).2.2.1 "")

/-- `audit_out` initial contents (invoice_utils.py 345): read through the
raw Python index `col_audit`, which is `-1` when no audit header exists. -/
def auditInitIU (colAudit : Option ℕ) (rows : List (List String)) : Option (List String) :=
  optionMapList (fun r => pyCellInt r (match colAudit with | some i => (i : Int) | none => -1)) rows

/-- Final state of one assigner run: the invoice column as written, the
audit column as it would be written, the assigned count, and whether the
audit column is written back at all. -/
structure AssignOut where
  invOut : List String
  audOut : List String
  assigned : ℕ
  auditWritten : Bool
deriving DecidableEq

/-- `assign_invoice_numbers` (invoice_utils.py 282-375).  The two
empty-block checks are hoisted before the (pure) column discovery; `none`
covers the "empty", "no_program_rows" and "no_matches" early returns and an
`IndexError` from the audit initialisation — in all of them nothing is
written back. -/
def assign_invoice_numbers (masterVals progVals : List (List String))
    (monthFilter : Option String) (exact force : Bool) : Option AssignOut :=
  if masterVals.length < 2 then none
  else if progVals.length < 2 then none
  else
    let colAudit := (masterColsIU (masterVals.headD [])).2.2.2
    let groups := groupsOfIU masterVals progVals monthFilter exact
    if groups = [] then none
    else
      match auditInitIU colAudit masterVals.tail with
      | none => none
      | some audInit =>
        let maps := progMapsOf progVals exact
        let out := assignAllGroups colAudit.isSome force maps.1 maps.2 groups
          (invInitIU masterVals) audInit 0
        some ⟨out.1, out.2.1, out.2.2, colAudit.isSome⟩

/-- The master-sheet column indices of run_create_invoices.py 334-345:
exact header-name lookup with fallbacks 0, 1, 7. -/
def masterColsRun (headers : List String) : ℕ × ℕ × ℕ :=
  ((headers.findIdx? (fun h => h = "Month")).getD 0,
   (headers.findIdx? (fun h => h = "SME Name")).getD 1,
   (headers.findIdx? (fun h => h = "invoice number")).getD 7)

/-- Index of the LAST matching header (the run variant's program-column
scan keeps reassigning, run_create_invoices.py 357-361). -/
def lastIdxWhere (p : String → Bool) : ℕ → List String → Option ℕ → Option ℕ
  | _, [], acc => acc
  | i, h :: t, acc => lastIdxWhere p (i + 1) t (if p h then some i else acc)

/-- The program-sheet column indices of run_create_invoices.py 354-365:
(invoice with fallback 1, sme with fallback 2); the sme test is
`"SME Name" in h` (case-sensitive) or the lowercase long form, due to the
source's `and`/`or` precedence. -/
def progColsRun (progHeader : List String) : ℕ × ℕ :=
  ((lastIdxWhere (fun h => containsSub (lowerStr h.data) ("invoice number".data))
      0 progHeader none).getD 1,
   (lastIdxWhere (fun h => containsSub h.data ("SME Name".data) ||
      containsSub (lowerStr h.data) ("sme name / company name".data))
      0 progHeader none).getD 2)

/-- `prevMaxInvoice` and `matchedProgramRows` of the run assigner. -/
def progMapsOfRun (progVals : List (List String)) :
    List (String × ℕ) × List (String × List ℕ) :=
  buildProgMapsRun (progColsRun (progVals.headD [])).2 (progColsRun (progVals.headD [])).1
    0 progVals.tail ([], [])

/-- `groups` of the run assigner. -/
def groupsOfRun (masterVals progVals : List (List String)) (monthFilter : Option String) :
    List (String × List ℕ) :=
  buildGroupsRun (masterColsRun (masterVals.headD [])).1
    (masterColsRun (masterVals.headD [])).2.1 monthFilter (progMapsOfRun progVals).1
    0 masterVals.tail []

/-- `invoiceOut` initial contents (run_create_invoices.py 403). -/
def invInitRun (masterVals : List (List String)) : List String :=
  masterVals.tail.map (fun r => r.getD (masterColsRun (masterVals.headD [])).2.2 "")

/-- `assign_invoice_numbers_exact_match` (run_create_invoices.py 323-443).
`audit_out` starts as an all-empty column (line 404) and is written back
whenever a header containing "invoice audit" exists; the invoice column is
written to column H regardless of where the invoice header was found. -/
def assign_invoice_numbers_exact_match (masterVals progVals : List (List String))
    (monthFilter : Option String) (force : Bool) : Option AssignOut :=
  if masterVals.length < 2 then none
  else if progVals.length < 2 then none
  else
    let groups := groupsOfRun masterVals progVals monthFilter
    if groups = [] then none
    else
      let maps := progMapsOfRun progVals
      let audInit := masterVals.tail.map (fun _ => "")
      let out := assignAllGroups true force maps.1 maps.2 groups
        (invInitRun masterVals) audInit 0
      some ⟨out.1, out.2.1, out.2.2,
        ((masterVals.headD []).findIdx?
          (fun h => containsSub (lowerStr h.data) ("invoice audit".data))).isSome⟩

/-! ### Assignment-loop lemmas -/

/-- Number of sequence slots consumed before the `j`-th row of a group:
the blank invoice cells among the group's first `j` rows. -/
def countBlanksBefore (inv : List String) (g : List ℕ) (j : ℕ) : ℕ :=
  (g.take j).countP (fun sr => decide (inv.getD (sr - 2) "" = ""))

theorem getD_set_self (l : List String) (i : ℕ) (a : String) (h : i < l.length) :
    (l.set i a).getD i "" = a := by
  rw [List.getD_eq_getElem?_getD, List.getElem?_set_self h]
  rfl

theorem getD_set_ne (l : List String) (i j : ℕ) (a : String) (h : i ≠ j) :
    (l.set i a).getD j "" = l.getD j "" := by
  rw [List.getD_eq_getElem?_getD, List.getElem?_set_ne h, ← List.getD_eq_getElem?_getD]

theorem assignRows_length (hasAudit force : Bool) (refs : List ℕ) (pm : ℕ) :
    ∀ (g : List ℕ) (nextNum : ℕ) (inv aud : List String) (cnt : ℕ),
    (assignRows hasAudit force refs pm nextNum g inv aud cnt).1.length = inv.length ∧
    (assignRows hasAudit force refs pm nextNum g inv aud cnt).2.1.length = aud.length := by
  intro g
  induction g with
  | nil => intro nextNum inv aud cnt; exact ⟨rfl, rfl⟩
  | cons sr rest ih =>
    intro nextNum inv aud cnt
    dsimp only [assignRows]
    split
    · exact ih nextNum inv aud cnt
    · have h2 := ih (nextNum + 1) (inv.set (sr - 2) (invString nextNum))
        (if hasAudit then aud.set (sr - 2) (auditString refs pm nextNum) else aud) (cnt + 1)
      refine ⟨h2.1.trans (List.length_set inv _ _), h2.2.trans ?_⟩
      split
      · exact List.length_set aud _ _
      · rfl

theorem assignRows_frame (hasAudit force : Bool) (refs : List ℕ) (pm : ℕ) :
    ∀ (g : List ℕ) (nextNum : ℕ) (inv aud : List String) (cnt : ℕ) (idx : ℕ),
    (∀ sr ∈ g, sr - 2 ≠ idx) →
    (assignRows hasAudit force refs pm nextNum g inv aud cnt).1.getD idx "" = inv.getD idx "" ∧
    (assignRows hasAudit force refs pm nextNum g inv aud cnt).2.1.getD idx "" =
      aud.getD idx "" := by
  intro g
  induction g with
  | nil => intro nextNum inv aud cnt idx _; exact ⟨rfl, rfl⟩
  | cons sr rest ih =>
    intro nextNum inv aud cnt idx hmiss
    have hhd : sr - 2 ≠ idx := hmiss sr (List.mem_cons_self sr rest)
    have htl : ∀ s ∈ rest, s - 2 ≠ idx := fun s hs => hmiss s (List.mem_cons_of_mem sr hs)
    dsimp only [assignRows]
    split
    · exact ih nextNum inv aud cnt idx htl
    · have h2 := ih (nextNum + 1) (inv.set (sr - 2) (invString nextNum))
        (if hasAudit then aud.set (sr - 2) (auditString refs pm nextNum) else aud)
        (cnt + 1) idx htl
      refine ⟨h2.1.trans (getD_set_ne _ _ _ _ hhd), h2.2.trans ?_⟩
      split
      · exact getD_set_ne _ _ _ _ hhd
      · rfl

theorem assignRows_spec (hasAudit : Bool) (refs : List ℕ) (pm : ℕ) :
    ∀ (g : List ℕ) (nextNum : ℕ) (inv aud : List String) (cnt : ℕ),
    (∀ sr ∈ g, 2 ≤ sr ∧ sr - 2 < inv.length) →
    g.Pairwise (fun a b => a ≠ b) →
    ∀ j : ℕ, ∀ hj : j < g.length,
    (inv.getD (g.get ⟨j, hj⟩ - 2) "" ≠ "" →
      (assignRows hasAudit false refs pm nextNum g inv aud cnt).1.getD
          (g.get ⟨j, hj⟩ - 2) "" = inv.getD (g.get ⟨j, hj⟩ - 2) "" ∧
      (assignRows hasAudit false refs pm nextNum g inv aud cnt).2.1.getD
          (g.get ⟨j, hj⟩ - 2) "" = aud.getD (g.get ⟨j, hj⟩ - 2) "") ∧
    (inv.getD (g.get ⟨j, hj⟩ - 2) "" = "" →
      (assignRows hasAudit false refs pm nextNum g inv aud cnt).1.getD
          (g.get ⟨j, hj⟩ - 2) "" = invString (nextNum + countBlanksBefore inv g j)) := by
  intro g
  induction g with
  | nil => intro nextNum inv aud cnt _ _ j hj; exact absurd hj (by simp)
  | cons sr rest ih =>
    intro nextNum inv aud cnt hb hp j hj
    have hbhd := hb sr (List.mem_cons_self sr rest)
    have hbtl : ∀ s ∈ rest, 2 ≤ s ∧ s - 2 < inv.length :=
      fun s hs => hb s (List.mem_cons_of_mem sr hs)
    have hne : ∀ s ∈ rest, sr ≠ s := (List.pairwise_cons.mp hp).1
    have hptl := (List.pairwise_cons.mp hp).2
    have hidxne : ∀ s ∈ rest, s - 2 ≠ sr - 2 := by
      intro s hs heq
      exact hne s hs (by have := (hbtl s hs).1; have := hbhd.1; omega)
    dsimp only [assignRows]
    by_cases hex : inv.getD (sr - 2) "" = ""
    · rw [if_neg (fun hc => hc.1 hex)]
      cases j with
      | zero =>
        rw [show (sr :: rest).get ⟨0, hj⟩ = sr from rfl]
        constructor
        · intro hnb; exact absurd hex hnb
        · intro _
          have hfr := assignRows_frame hasAudit false refs pm rest (nextNum + 1)
            (inv.set (sr - 2) (invString nextNum))
            (if hasAudit then aud.set (sr - 2) (auditString refs pm nextNum) else aud)
            (cnt + 1) (sr - 2) hidxne
          rw [hfr.1, getD_set_self _ _ _ hbhd.2]
          simp [countBlanksBefore]
      | succ j =>
        have hj' : j < rest.length := by simpa using hj
        have hget : (sr :: rest).get ⟨j + 1, hj⟩ = rest.get ⟨j, hj'⟩ := rfl
        have hmem : rest.get ⟨j, hj'⟩ ∈ rest := List.get_mem rest j hj'
        have hinv' : (inv.set (sr - 2) (invString nextNum)).getD
            (rest.get ⟨j, hj'⟩ - 2) "" = inv.getD (rest.get ⟨j, hj'⟩ - 2) "" :=
          getD_set_ne _ _ _ _ (Ne.symm (hidxne _ hmem))
        have hb' : ∀ s ∈ rest, 2 ≤ s ∧ s - 2 < (inv.set (sr - 2) (invString nextNum)).length := by
          intro s hs
          exact ⟨(hbtl s hs).1, by rw [List.length_set]; exact (hbtl s hs).2⟩
        have hcount : countBlanksBefore inv (sr :: rest) (j + 1) =
            countBlanksBefore (inv.set (sr - 2) (invString nextNum)) rest j + 1 := by
          have hcongr : (rest.take j).countP
              (fun s => decide ((inv.set (sr - 2) (invString nextNum)).getD (s - 2) "" = "")) =
              (rest.take j).countP (fun s => decide (inv.getD (s - 2) "" = "")) := by
            refine List.countP_congr ?_
            intro x hx
            rw [getD_set_ne _ _ _ _ (Ne.symm (hidxne x (List.take_subset j rest hx)))]
          simp only [countBlanksBefore, List.take_succ_cons, List.countP_cons, hcongr, hex]
          simp
        have hstep := ih (nextNum + 1) (inv.set (sr - 2) (invString nextNum))
          (if hasAudit then aud.set (sr - 2) (auditString refs pm nextNum) else aud)
          (cnt + 1) hb' hptl j hj'
        rw [hget, ← hinv']
        constructor
        · intro hnb
          refine ⟨(hstep.1 hnb).1, ((hstep.1 hnb).2).trans ?_⟩
          split
          · exact getD_set_ne _ _ _ _ (hidxne _ hmem).symm
          · rfl
        · intro hbl
          rw [(hstep.2 hbl)]
          have : nextNum + 1 + countBlanksBefore (inv.set (sr - 2) (invString nextNum)) rest j =
              nextNum + countBlanksBefore inv (sr :: rest) (j + 1) := by
            rw [hcount]; omega
          rw [this]
    · rw [if_pos ⟨hex, by simp⟩]
      cases j with
      | zero =>
        rw [show (sr :: rest).get ⟨0, hj⟩ = sr from rfl]
        constructor
        · intro _
          exact assignRows_frame hasAudit false refs pm rest nextNum inv aud cnt (sr - 2) hidxne
        · intro hbl; exact absurd hbl hex
      | succ j =>
        have hj' : j < rest.length := by simpa using hj
        have hget : (sr :: rest).get ⟨j + 1, hj⟩ = rest.get ⟨j, hj'⟩ := rfl
        have hcount : countBlanksBefore inv (sr :: rest) (j + 1) =
            countBlanksBefore inv rest j := by
          simp only [countBlanksBefore, List.take_succ_cons, List.countP_cons, hex]
          simp
        rw [hget, hcount]
        exact ih nextNum inv aud cnt hbtl hptl j hj'
theorem assignAllGroups_length (hasAudit force : Bool) (prevMax : List (String × ℕ))
    (progRefs : List (String × List ℕ)) :
    ∀ (gs : List (String × List ℕ)) (inv aud : List String) (cnt : ℕ),
    (assignAllGroups hasAudit force prevMax progRefs gs inv aud cnt).1.length = inv.length ∧
    (assignAllGroups hasAudit force prevMax progRefs gs inv aud cnt).2.1.length =
      aud.length := by
  intro gs
  induction gs with
  | nil => intro inv aud cnt; exact ⟨rfl, rfl⟩
  | cons p rest ih =>
    obtain ⟨k, g⟩ := p
    intro inv aud cnt
    dsimp only [assignAllGroups]
    have h1 := assignRows_length hasAudit force ((lookupA progRefs k).getD [])
      ((lookupA prevMax k).getD 0) g ((lookupA prevMax k).getD 0 + 1) inv aud cnt
    refine ⟨Eq.trans ?_ h1.1, Eq.trans ?_ h1.2⟩
    · exact (ih _ _ _).1
    · exact (ih _ _ _).2

theorem assignAllGroups_frame (hasAudit force : Bool) (prevMax : List (String × ℕ))
    (progRefs : List (String × List ℕ)) :
    ∀ (gs : List (String × List ℕ)) (inv aud : List String) (cnt : ℕ) (idx : ℕ),
    (∀ p ∈ gs, ∀ sr ∈ p.2, sr - 2 ≠ idx) →
    (assignAllGroups hasAudit force prevMax progRefs gs inv aud cnt).1.getD idx "" =
      inv.getD idx "" ∧
    (assignAllGroups hasAudit force prevMax progRefs gs inv aud cnt).2.1.getD idx "" =
      aud.getD idx "" := by
  intro gs
  induction gs with
  | nil => intro inv aud cnt idx _; exact ⟨rfl, rfl⟩
  | cons p rest ih =>
    obtain ⟨k, g⟩ := p
    intro inv aud cnt idx hmiss
    dsimp only [assignAllGroups]
    have h1 := assignRows_frame hasAudit force ((lookupA progRefs k).getD [])
      ((lookupA prevMax k).getD 0) g ((lookupA prevMax k).getD 0 + 1) inv aud cnt idx
      (fun s hs => hmiss (k, g) (List.mem_cons_self _ _) s hs)
    have htl : ∀ q ∈ rest, ∀ s ∈ q.2, s - 2 ≠ idx :=
      fun q hq s hs => hmiss q (List.mem_cons_of_mem _ hq) s hs
    refine ⟨Eq.trans ?_ h1.1, Eq.trans ?_ h1.2⟩
    · exact (ih _ _ _ idx htl).1
    · exact (ih _ _ _ idx htl).2

theorem assignAllGroups_spec (hasAudit : Bool) (prevMax : List (String × ℕ))
    (progRefs : List (String × List ℕ)) :
    ∀ (gs : List (String × List ℕ)) (inv aud : List String) (cnt : ℕ),
    (∀ p ∈ gs, ∀ sr ∈ p.2, 2 ≤ sr ∧ sr - 2 < inv.length) →
    (∀ p ∈ gs, p.2.Pairwise (fun a b => a ≠ b)) →
    gs.Pairwise (fun p q => ∀ a ∈ p.2, ∀ b ∈ q.2, a ≠ b) →
    ∀ p ∈ gs, ∀ j : ℕ, ∀ hj : j < p.2.length,
    (inv.getD (p.2.get ⟨j, hj⟩ - 2) "" ≠ "" →
      (assignAllGroups hasAudit false prevMax progRefs gs inv aud cnt).1.getD
          (p.2.get ⟨j, hj⟩ - 2) "" = inv.getD (p.2.get ⟨j, hj⟩ - 2) "" ∧
      (assignAllGroups hasAudit false prevMax progRefs gs inv aud cnt).2.1.getD
          (p.2.get ⟨j, hj⟩ - 2) "" = aud.getD (p.2.get ⟨j, hj⟩ - 2) "") ∧
    (inv.getD (p.2.get ⟨j, hj⟩ - 2) "" = "" →
      (assignAllGroups hasAudit false prevMax progRefs gs inv aud cnt).1.getD
          (p.2.get ⟨j, hj⟩ - 2) "" =
        invString ((lookupA prevMax p.1).getD 0 + 1 + countBlanksBefore inv p.2 j)) := by
  intro gs
  induction gs with
  | nil => intro inv aud cnt _ _ _ p hp; exact absurd hp (by simp)
  | cons hd rest ih =>
    obtain ⟨k, g⟩ := hd
    intro inv aud cnt hb hpg hdisj p hp j hj
    have hbhd : ∀ sr ∈ g, 2 ≤ sr ∧ sr - 2 < inv.length :=
      fun sr hsr => hb (k, g) (List.mem_cons_self _ _) sr hsr
    have hbtl : ∀ q ∈ rest, ∀ sr ∈ q.2, 2 ≤ sr ∧ sr - 2 < inv.length :=
      fun q hq sr hsr => hb q (List.mem_cons_of_mem _ hq) sr hsr
    have hdisjH : ∀ q ∈ rest, ∀ a ∈ g, ∀ b ∈ q.2, a ≠ b := (List.pairwise_cons.mp hdisj).1
    have hdisjT := (List.pairwise_cons.mp hdisj).2
    dsimp only [assignAllGroups]
    set out := assignRows hasAudit false ((lookupA progRefs k).getD [])
      ((lookupA prevMax k).getD 0) ((lookupA prevMax k).getD 0 + 1) g inv aud cnt with hout
    have hlenA := assignRows_length hasAudit false ((lookupA progRefs k).getD [])
      ((lookupA prevMax k).getD 0) g ((lookupA prevMax k).getD 0 + 1) inv aud cnt
    rcases List.mem_cons.mp hp with heq | hmemR
    · -- p is the head group
      subst heq
      have hspec := assignRows_spec hasAudit ((lookupA progRefs k).getD [])
        ((lookupA prevMax k).getD 0) g ((lookupA prevMax k).getD 0 + 1) inv aud cnt hbhd
        (hpg (k, g) (List.mem_cons_self _ _)) j hj
      have hmiss : ∀ q ∈ rest, ∀ b ∈ q.2, b - 2 ≠ g.get ⟨j, hj⟩ - 2 := by
        intro q hq b hbm heqidx
        have h1 := (hbhd _ (List.get_mem g j hj)).1
        have h2 := (hbtl q hq b hbm).1
        exact hdisjH q hq _ (List.get_mem g j hj) b hbm (by omega)
      have hfr := assignAllGroups_frame hasAudit false prevMax progRefs rest
        out.1 out.2.1 out.2.2 (g.get ⟨j, hj⟩ - 2) hmiss
      constructor
      · intro hnb
        exact ⟨hfr.1.trans (hspec.1 hnb).1, hfr.2.trans (hspec.1 hnb).2⟩
      · intro hbl
        exact hfr.1.trans (hspec.2 hbl)
    · -- p is in the tail; the head group's writes miss all of p's rows
      have hmissAll : ∀ x ∈ p.2, ∀ s ∈ g, s - 2 ≠ x - 2 := by
        intro x hx s hs heqidx
        have h1 := (hbhd s hs).1
        have h2 := (hbtl p hmemR x hx).1
        exact hdisjH p hmemR s hs x hx (by omega)
      have hfrA := assignRows_frame hasAudit false ((lookupA progRefs k).getD [])
        ((lookupA prevMax k).getD 0) g ((lookupA prevMax k).getD 0 + 1) inv aud cnt
        (p.2.get ⟨j, hj⟩ - 2) (hmissAll _ (List.get_mem p.2 j hj))
      have hbtl' : ∀ q ∈ rest, ∀ sr ∈ q.2, 2 ≤ sr ∧ sr - 2 < out.1.length :=
        fun q hq sr hsr => ⟨(hbtl q hq sr hsr).1, by
          rw [hlenA.1]; exact (hbtl q hq sr hsr).2⟩
      have hpg' : ∀ q ∈ rest, q.2.Pairwise (fun a b => a ≠ b) :=
        fun q hq => hpg q (List.mem_cons_of_mem _ hq)
      have hstep := ih out.1 out.2.1 out.2.2 hbtl' hpg' hdisjT p hmemR j hj
      have hcount : countBlanksBefore out.1 p.2 j = countBlanksBefore inv p.2 j := by
        refine List.countP_congr ?_
        intro x hx
        have hxm : x ∈ p.2 := List.take_subset j p.2 hx
        rw [(assignRows_frame hasAudit false ((lookupA progRefs k).getD [])
          ((lookupA prevMax k).getD 0) g ((lookupA prevMax k).getD 0 + 1) inv aud cnt
          (x - 2) (hmissAll x hxm)).1]
      rw [hfrA.1, hfrA.2, hcount] at hstep
      exact hstep

/-- Well-formedness of the grouping dictionaries both assigners build: every
stored sheet-row number lies in `[2, lo)`, each group's rows are strictly
increasing (original row order), and no sheet row belongs to two groups. -/
def GroupsWF (lo : ℕ) (gs : List (String × List ℕ)) : Prop :=
  (∀ p ∈ gs, ∀ sr ∈ p.2, 2 ≤ sr ∧ sr < lo) ∧
  (∀ p ∈ gs, p.2.Pairwise (fun a b => a < b)) ∧
  gs.Pairwise (fun p q => ∀ a ∈ p.2, ∀ b ∈ q.2, a ≠ b)

theorem GroupsWF_mono {lo lo' : ℕ} {gs : List (String × List ℕ)} (h : lo ≤ lo')
    (hwf : GroupsWF lo gs) : GroupsWF lo' gs :=
  ⟨fun p hp sr hsr => ⟨(hwf.1 p hp sr hsr).1, lt_of_lt_of_le (hwf.1 p hp sr hsr).2 h⟩,
   hwf.2.1, hwf.2.2⟩

theorem appendRef_rows_mem :
    ∀ (gs : List (String × List ℕ)) (k : String) (n : ℕ) (q : String × List ℕ),
    q ∈ appendRef gs k n → ∀ b ∈ q.2, (∃ q' ∈ gs, b ∈ q'.2) ∨ b = n := by
  intro gs
  induction gs with
  | nil =>
    intro k n q hq b hb
    simp only [appendRef, List.mem_singleton] at hq
    subst hq
    simp only [List.mem_singleton] at hb
    exact Or.inr hb
  | cons hd rest ih =>
    obtain ⟨k0, g0⟩ := hd
    intro k n q hq b hb
    dsimp only [appendRef] at hq
    split at hq
    · rcases List.mem_cons.mp hq with rfl | hmem
      · rcases List.mem_append.mp hb with hb0 | hbn
        · exact Or.inl ⟨(k0, g0), List.mem_cons_self _ _, hb0⟩
        · exact Or.inr (List.mem_singleton.mp hbn)
      · exact Or.inl ⟨q, List.mem_cons_of_mem _ hmem, hb⟩
    · rcases List.mem_cons.mp hq with rfl | hmem
      · exact Or.inl ⟨(k0, g0), List.mem_cons_self _ _, hb⟩
      · rcases ih k n q hmem b hb with ⟨q', hq', hb'⟩ | hbn
        · exact Or.inl ⟨q', List.mem_cons_of_mem _ hq', hb'⟩
        · exact Or.inr hbn

theorem GroupsWF_appendRef (k : String) :
    ∀ (gs : List (String × List ℕ)) (lo : ℕ), 2 ≤ lo → GroupsWF lo gs →
    GroupsWF (lo + 1) (appendRef gs k lo) := by
  intro gs
  induction gs with
  | nil =>
    intro lo h2 _
    refine ⟨?_, ?_, ?_⟩
    · intro p hp sr hsr
      simp only [appendRef, List.mem_singleton] at hp
      subst hp
      simp only [List.mem_singleton] at hsr
      subst hsr
      exact ⟨h2, Nat.lt_succ_self _⟩
    · intro p hp
      simp only [appendRef, List.mem_singleton] at hp
      subst hp
      simp
    · simp [appendRef]
  | cons hd rest ih =>
    obtain ⟨k0, g0⟩ := hd
    intro lo h2 hwf
    obtain ⟨hbnd, hsort, hdisj⟩ := hwf
    have hdisjH : ∀ q ∈ rest, ∀ a ∈ g0, ∀ b ∈ q.2, a ≠ b := (List.pairwise_cons.mp hdisj).1
    have hdisjT := (List.pairwise_cons.mp hdisj).2
    have hbhd : ∀ sr ∈ g0, 2 ≤ sr ∧ sr < lo :=
      fun sr hsr => hbnd (k0, g0) (List.mem_cons_self _ _) sr hsr
    have hbtl : ∀ q ∈ rest, ∀ sr ∈ q.2, 2 ≤ sr ∧ sr < lo :=
      fun q hq sr hsr => hbnd q (List.mem_cons_of_mem _ hq) sr hsr
    dsimp only [appendRef]
    split
    · -- same key: the new row number goes at the end of the head group
      refine ⟨?_, ?_, ?_⟩
      · intro p hp sr hsr
        rcases List.mem_cons.mp hp with rfl | hmem
        · rcases List.mem_append.mp hsr with hs0 | hsn
          · exact ⟨(hbhd sr hs0).1, Nat.lt_succ_of_lt (hbhd sr hs0).2⟩
          · rw [List.mem_singleton.mp hsn]
            exact ⟨h2, Nat.lt_succ_self lo⟩
        · exact ⟨(hbtl p hmem sr hsr).1, Nat.lt_succ_of_lt (hbtl p hmem sr hsr).2⟩
      · intro p hp
        rcases List.mem_cons.mp hp with rfl | hmem
        · refine List.pairwise_append.mpr ⟨hsort (k0, g0) (List.mem_cons_self _ _), by simp, ?_⟩
          intro a ha b hbm
          rw [List.mem_singleton.mp hbm]
          exact (hbhd a ha).2
        · exact hsort p (List.mem_cons_of_mem _ hmem)
      · refine List.pairwise_cons.mpr ⟨?_, hdisjT⟩
        intro q hq a ha b hbm
        rcases List.mem_append.mp ha with ha0 | han
        · exact hdisjH q hq a ha0 b hbm
        · rw [List.mem_singleton.mp han]
          exact fun heq => absurd (hbtl q hq b hbm).2 (by omega)
    · -- different key: recurse into the tail
      have ihr := ih lo h2 ⟨hbtl, fun q hq => hsort q (List.mem_cons_of_mem _ hq), hdisjT⟩
      refine ⟨?_, ?_, ?_⟩
      · intro p hp sr hsr
        rcases List.mem_cons.mp hp with rfl | hmem
        · exact ⟨(hbhd sr hsr).1, Nat.lt_succ_of_lt (hbhd sr hsr).2⟩
        · exact ihr.1 p hmem sr hsr
      · intro p hp
        rcases List.mem_cons.mp hp with rfl | hmem
        · exact hsort (k0, g0) (List.mem_cons_self _ _)
        · exact ihr.2.1 p hmem
      · refine List.pairwise_cons.mpr ⟨?_, ihr.2.2⟩
        intro q hq a ha b hbm
        rcases appendRef_rows_mem rest k lo q hq b hbm with ⟨q', hq', hb'⟩ | rfl
        · exact hdisjH q' hq' a ha b hb'
        · exact fun heq => absurd (hbhd a ha).2 (by omega)

theorem buildGroupsIU_wf (exb : Bool) (colMonth : Option ℕ) (colSme : ℕ)
    (mf : Option String) (prevMax : List (String × ℕ)) :
    ∀ (rows : List (List String)) (i : ℕ) (gs : List (String × List ℕ)),
    GroupsWF (i + 2) gs →
    GroupsWF (i + 2 + rows.length)
      (buildGroupsIU exb colMonth colSme mf prevMax i rows gs) := by
  intro rows
  induction rows with
  | nil => intro i gs h; simpa using h
  | cons row rest ih =>
    intro i gs h
    have hlen : i + 2 + (row :: rest).length = i + 1 + 2 + rest.length := by
      simp; omega
    rw [hlen]
    dsimp only [buildGroupsIU]
    set key := if exb = true then row.getD colSme "" else normalize_text (row.getD colSme "")
      with hkey
    split
    · exact ih (i + 1) gs (GroupsWF_mono (by omega) h)
    · split
      · exact ih (i + 1) gs (GroupsWF_mono (by omega) h)
      · split
        · exact ih (i + 1) _
            (GroupsWF_mono (by omega) (GroupsWF_appendRef key gs (i + 2) (by omega) h))
        · exact ih (i + 1) gs (GroupsWF_mono (by omega) h)

theorem buildGroupsRun_wf (colMonth colSme : ℕ) (mf : Option String)
    (prevMax : List (String × ℕ)) :
    ∀ (rows : List (List String)) (i : ℕ) (gs : List (String × List ℕ)),
    GroupsWF (i + 2) gs →
    GroupsWF (i + 2 + rows.length)
      (buildGroupsRun colMonth colSme mf prevMax i rows gs) := by
  intro rows
  induction rows with
  | nil => intro i gs h; simpa using h
  | cons row rest ih =>
    intro i gs h
    have hlen : i + 2 + (row :: rest).length = i + 1 + 2 + rest.length := by
      simp; omega
    rw [hlen]
    dsimp only [buildGroupsRun]
    split
    · exact ih (i + 1) gs (GroupsWF_mono (by omega) h)
    · split
      · exact ih (i + 1) gs (GroupsWF_mono (by omega) h)
      · split
        · exact ih (i + 1) _
            (GroupsWF_mono (by omega)
              (GroupsWF_appendRef (row.getD colSme "") gs (i + 2) (by omega) h))
        · exact ih (i + 1) gs (GroupsWF_mono (by omega) h)

theorem groupsOfIU_wf (mv pv : List (List String)) (mf : Option String) (exact_ : Bool) :
    GroupsWF (2 + mv.tail.length) (groupsOfIU mv pv mf exact_) := by
  have h0 : GroupsWF (0 + 2) ([] : List (String × List ℕ)) := by
    refine ⟨?_, ?_, ?_⟩ <;> simp
  have := buildGroupsIU_wf exact_ (masterColsIU (mv.headD [])).1
    (masterColsIU (mv.headD [])).2.1 mf (progMapsOf pv exact_).1 mv.tail 0 [] h0
  exact GroupsWF_mono (by omega) this

theorem groupsOfRun_wf (mv pv : List (List String)) (mf : Option String) :
    GroupsWF (2 + mv.tail.length) (groupsOfRun mv pv mf) := by
  have h0 : GroupsWF (0 + 2) ([] : List (String × List ℕ)) := by
    refine ⟨?_, ?_, ?_⟩ <;> simp
  have := buildGroupsRun_wf (masterColsRun (mv.headD [])).1
    (masterColsRun (mv.headD [])).2.1 mf (progMapsOfRun pv).1 mv.tail 0 [] h0
  exact GroupsWF_mono (by omega) this

/-- C1: with force-overwrite off, `assign_invoice_numbers` processes each
matched key's qualifying master rows in original row order (the stored
sheet-row numbers are strictly increasing); a row whose invoice cell was
blank receives `Invoice # (prevMax[key] + 1 + b)` where `b` counts the blank
cells among the group's earlier rows — a strictly increasing consecutive
sequence starting at `prevMax[key] + 1` over the blank rows — so every
assigned number strictly exceeds the key's pre-run maximum; a row whose
invoice cell was non-blank keeps it byte-for-byte and consumes no number. -/
theorem C1_invoice_numbering (mv pv : List (List String)) (mf : Option String)
    (exact_ : Bool) (res : AssignOut)
    (h : assign_invoice_numbers mv pv mf exact_ false = some res)
    (k : String) (g : List ℕ) (hg : (k, g) ∈ groupsOfIU mv pv mf exact_)
    (j : ℕ) (hj : j < g.length) :
    g.Pairwise (fun a b => a < b) ∧ 2 ≤ g.get ⟨j, hj⟩ ∧
    ((invInitIU mv).getD (g.get ⟨j, hj⟩ - 2) "" ≠ "" →
      res.invOut.getD (g.get ⟨j, hj⟩ - 2) "" =
        (invInitIU mv).getD (g.get ⟨j, hj⟩ - 2) "") ∧
    ((invInitIU mv).getD (g.get ⟨j, hj⟩ - 2) "" = "" →
      res.invOut.getD (g.get ⟨j, hj⟩ - 2) "" =
        invString ((lookupA (progMapsOf pv exact_).1 k).getD 0 + 1 +
          countBlanksBefore (invInitIU mv) g j) ∧
      (lookupA (progMapsOf pv exact_).1 k).getD 0 <
        (lookupA (progMapsOf pv exact_).1 k).getD 0 + 1 +
          countBlanksBefore (invInitIU mv) g j) := by
  have hwf := groupsOfIU_wf mv pv mf exact_
  have hlen : (invInitIU mv).length = mv.tail.length := List.length_map _ _
  have hb2 : ∀ p ∈ groupsOfIU mv pv mf exact_, ∀ sr ∈ p.2,
      2 ≤ sr ∧ sr - 2 < (invInitIU mv).length := by
    intro p hp sr hsr
    have := hwf.1 p hp sr hsr
    exact ⟨this.1, by omega⟩
  have hpair : ∀ p ∈ groupsOfIU mv pv mf exact_, p.2.Pairwise (fun a b => a ≠ b) :=
    fun p hp => (hwf.2.1 p hp).imp (fun hlt => ne_of_lt hlt)
  refine ⟨hwf.2.1 (k, g) hg, (hwf.1 (k, g) hg _ (List.get_mem g j hj)).1, ?_⟩
  unfold assign_invoice_numbers at h
  split at h
  · exact absurd h (by simp)
  · split at h
    · exact absurd h (by simp)
    · dsimp only at h
      split at h
      · exact absurd h (by simp)
      · split at h
        · exact absurd h (by simp)
        · rename_i audInit heq
          have hres := (Option.some.inj h).symm
          subst hres
          have hspec := assignAllGroups_spec (masterColsIU (mv.headD [])).2.2.2.isSome
            (progMapsOf pv exact_).1 (progMapsOf pv exact_).2
            (groupsOfIU mv pv mf exact_) (invInitIU mv) audInit 0
            hb2 hpair hwf.2.2 (k, g) hg j hj
          exact ⟨fun hnb => (hspec.1 hnb).1, fun hbl => ⟨hspec.2 hbl, by omega⟩⟩

/-- Witness for C1: three master rows for Jane (program maximum 7); the rows
with blank invoice cells get "Invoice # 8" and "Invoice # 9" while the
middle row keeps "Invoice # 5"; the instantiation checks the third group
row (sheet row 4, one blank predecessor). -/
theorem C1_invoice_numbering_witness :
    (invInitIU [["Month", "SME Name", "Course", "Tracker", "Amount", "Period", "G",
        "invoice number", "I", "J"], ["Sep", "Jane"],
        ["Sep", "Jane", "", "", "", "", "", "Invoice # 5"], ["Sep", "Jane"]]).getD 2 "" = "" ∧
    (AssignOut.invOut ⟨["Invoice # 8", "Invoice # 5", "Invoice # 9"],
        ["Jane", "Invoice # 5", "Jane"], 2, false⟩).getD 2 "" =
      invString ((lookupA (progMapsOf [["A", "Invoice Number", "SME Name"],
          ["x", "INV-7", "Jane"]] true).1 "Jane").getD 0 + 1 +
        countBlanksBefore (invInitIU [["Month", "SME Name", "Course", "Tracker", "Amount",
          "Period", "G", "invoice number", "I", "J"], ["Sep", "Jane"],
          ["Sep", "Jane", "", "", "", "", "", "Invoice # 5"], ["Sep", "Jane"]]) [2, 3, 4] 2) := by
  refine ⟨by decide, ?_⟩
  exact ((C1_invoice_numbering
      [["Month", "SME Name", "Course", "Tracker", "Amount", "Period", "G",
        "invoice number", "I", "J"], ["Sep", "Jane"],
        ["Sep", "Jane", "", "", "", "", "", "Invoice # 5"], ["Sep", "Jane"]]
      [["A", "Invoice Number", "SME Name"], ["x", "INV-7", "Jane"]] none true
      ⟨["Invoice # 8", "Invoice # 5", "Invoice # 9"], ["Jane", "Invoice # 5", "Jane"], 2, false⟩
      (by decide) "Jane" [2, 3, 4] (by decide) 2 (by decide)).2.2.2 (by decide)).1

theorem getD_const_blank : ∀ (l : List (List String)) (idx : ℕ),
    (l.map (fun _ => "")).getD idx "" = "" := by
  intro l
  induction l with
  | nil => intro idx; rfl
  | cons a t ih =>
    intro idx
    cases idx with
    | zero => rfl
    | succ n => exact ih n

/-- Master block used for the C2 frame experiments: a single data row that
already holds an invoice number and carries a prior audit note in the
"Invoice Audit" column. -/
def mvFrame : List (List String) :=
  [["Month", "SME Name", "C", "D", "E", "F", "G", "invoice number", "I", "J", "Invoice Audit"],
   ["Sep", "Jane", "", "", "", "", "", "Invoice # 5", "", "", "OLDAUDIT"]]

/-- Program block used for the C2 frame experiments. -/
def pvFrame : List (List String) :=
  [["A", "Invoice Number", "SME Name"], ["x", "INV-3", "Jane"]]

/-- C2 counterexample: `assign_invoice_numbers_exact_match` on a master sheet
whose only data row is skipped (existing invoice number, force off) assigns
nothing, yet writes back an audit column holding "" where the sheet held
"OLDAUDIT": the untouched row does not retain its prior audit cell. -/
theorem C2_frame_counterexample :
    assign_invoice_numbers_exact_match mvFrame pvFrame none false =
      some ⟨["Invoice # 5"], [""], 0, true⟩ ∧
    (mvFrame.headD []).findIdx?
      (fun h => containsSub (lowerStr h.data) ("invoice audit".data)) = some 10 ∧
    (mvFrame.tail.headD []).getD 10 "" = "OLDAUDIT" ∧
    ("" : String) ≠ "OLDAUDIT" := by
  refine ⟨by decide, by decide, by decide, by decide⟩

/-- C2 amended: the write-back frame holds for `assign_invoice_numbers`
(invoice_utils.py): a row index touched by no blank-cell group row keeps both
its invoice cell and its audit cell (the audit column is initialised from the
sheet). In `assign_invoice_numbers_exact_match` (run_create_invoices.py) such
a row keeps its invoice cell, but its audit cell in the written-back audit
column is the empty string regardless of its prior content, because the audit
output is initialised all-blank instead of from the sheet. -/
theorem C2_frame_amended :
    (∀ (mv pv : List (List String)) (mf : Option String) (exact_ : Bool) (res : AssignOut),
      assign_invoice_numbers mv pv mf exact_ false = some res →
      ∀ idx : ℕ,
      (∀ p ∈ groupsOfIU mv pv mf exact_, ∀ sr ∈ p.2,
        (invInitIU mv).getD (sr - 2) "" = "" → sr - 2 ≠ idx) →
      res.invOut.getD idx "" = (invInitIU mv).getD idx "" ∧
      ∀ ai, auditInitIU (masterColsIU (mv.headD [])).2.2.2 mv.tail = some ai →
        res.audOut.getD idx "" = ai.getD idx "") ∧
    (∀ (mv pv : List (List String)) (mf : Option String) (res : AssignOut),
      assign_invoice_numbers_exact_match mv pv mf false = some res →
      ∀ idx : ℕ,
      (∀ p ∈ groupsOfRun mv pv mf, ∀ sr ∈ p.2,
        (invInitRun mv).getD (sr - 2) "" = "" → sr - 2 ≠ idx) →
      res.invOut.getD idx "" = (invInitRun mv).getD idx "" ∧
      res.audOut.getD idx "" = "") := by
  constructor
  · intro mv pv mf exact_ res h idx hsafe
    have hwf := groupsOfIU_wf mv pv mf exact_
    have hlen : (invInitIU mv).length = mv.tail.length := List.length_map _ _
    have hb2 : ∀ p ∈ groupsOfIU mv pv mf exact_, ∀ sr ∈ p.2,
        2 ≤ sr ∧ sr - 2 < (invInitIU mv).length := by
      intro p hp sr hsr
      have := hwf.1 p hp sr hsr
      exact ⟨this.1, by omega⟩
    have hpair : ∀ p ∈ groupsOfIU mv pv mf exact_, p.2.Pairwise (fun a b => a ≠ b) :=
      fun p hp => (hwf.2.1 p hp).imp (fun hlt => ne_of_lt hlt)
    unfold assign_invoice_numbers at h
    split at h
    · exact absurd h (by simp)
    · split at h
      · exact absurd h (by simp)
      · dsimp only at h
        split at h
        · exact absurd h (by simp)
        · split at h
          · exact absurd h (by simp)
          · rename_i audInit heq
            have hres := (Option.some.inj h).symm
            subst hres
            by_cases hhit : ∃ p ∈ groupsOfIU mv pv mf exact_, ∃ sr ∈ p.2, sr - 2 = idx
            · obtain ⟨p, hp, sr, hsr, hidx⟩ := hhit
              have hnb : (invInitIU mv).getD (sr - 2) "" ≠ "" :=
                fun hbl => hsafe p hp sr hsr hbl hidx
              obtain ⟨⟨j0, hj0⟩, hget⟩ := List.mem_iff_get.mp hsr
              have hspec := assignAllGroups_spec (masterColsIU (mv.headD [])).2.2.2.isSome
                (progMapsOf pv exact_).1 (progMapsOf pv exact_).2
                (groupsOfIU mv pv mf exact_) (invInitIU mv) audInit 0
                hb2 hpair hwf.2.2 p hp j0 hj0
              rw [hget, hidx] at hspec
              rw [hidx] at hnb
              refine ⟨(hspec.1 hnb).1, ?_⟩
              intro ai hai
              rw [heq] at hai
              cases Option.some.inj hai
              exact (hspec.1 hnb).2
            · push_neg at hhit
              have hfr := assignAllGroups_frame (masterColsIU (mv.headD [])).2.2.2.isSome
                false (progMapsOf pv exact_).1 (progMapsOf pv exact_).2
                (groupsOfIU mv pv mf exact_) (invInitIU mv) audInit 0 idx hhit
              refine ⟨hfr.1, ?_⟩
              intro ai hai
              rw [heq] at hai
              cases Option.some.inj hai
              exact hfr.2
  · intro mv pv mf res h idx hsafe
    have hwf := groupsOfRun_wf mv pv mf
    have hlen : (invInitRun mv).length = mv.tail.length := List.length_map _ _
    have hb2 : ∀ p ∈ groupsOfRun mv pv mf, ∀ sr ∈ p.2,
        2 ≤ sr ∧ sr - 2 < (invInitRun mv).length := by
      intro p hp sr hsr
      have := hwf.1 p hp sr hsr
      exact ⟨this.1, by omega⟩
    have hpair : ∀ p ∈ groupsOfRun mv pv mf, p.2.Pairwise (fun a b => a ≠ b) :=
      fun p hp => (hwf.2.1 p hp).imp (fun hlt => ne_of_lt hlt)
    unfold assign_invoice_numbers_exact_match at h
    split at h
    · exact absurd h (by simp)
    · split at h
      · exact absurd h (by simp)
      · dsimp only at h
        split at h
        · exact absurd h (by simp)
        · have hres := (Option.some.inj h).symm
          subst hres
          by_cases hhit : ∃ p ∈ groupsOfRun mv pv mf, ∃ sr ∈ p.2, sr - 2 = idx
          · obtain ⟨p, hp, sr, hsr, hidx⟩ := hhit
            have hnb : (invInitRun mv).getD (sr - 2) "" ≠ "" :=
              fun hbl => hsafe p hp sr hsr hbl hidx
            obtain ⟨⟨j0, hj0⟩, hget⟩ := List.mem_iff_get.mp hsr
            have hspec := assignAllGroups_spec true
              (progMapsOfRun pv).1 (progMapsOfRun pv).2
              (groupsOfRun mv pv mf) (invInitRun mv) (mv.tail.map (fun _ => "")) 0
              hb2 hpair hwf.2.2 p hp j0 hj0
            rw [hget, hidx] at hspec
            rw [hidx] at hnb
            exact ⟨(hspec.1 hnb).1, ((hspec.1 hnb).2).trans (getD_const_blank mv.tail idx)⟩
          · push_neg at hhit
            have hfr := assignAllGroups_frame true false
              (progMapsOfRun pv).1 (progMapsOfRun pv).2
              (groupsOfRun mv pv mf) (invInitRun mv) (mv.tail.map (fun _ => "")) 0 idx hhit
            exact ⟨hfr.1, hfr.2.trans (getD_const_blank mv.tail idx)⟩

/-- Witness for the amended C2 frame property, on the `mvFrame`/`pvFrame`
sheets whose single data row is skipped: the invoice_utils variant keeps both
the invoice cell and the prior audit cell "OLDAUDIT", while the run variant
keeps the invoice cell but emits "" for the audit cell. -/
theorem C2_frame_amended_witness :
    (AssignOut.invOut ⟨["Invoice # 5"], ["OLDAUDIT"], 0, true⟩).getD 0 "" =
      (invInitIU mvFrame).getD 0 "" ∧
    (AssignOut.audOut ⟨["Invoice # 5"], ["OLDAUDIT"], 0, true⟩).getD 0 "" =
      (["OLDAUDIT"] : List String).getD 0 "" ∧
    (AssignOut.invOut ⟨["Invoice # 5"], [""], 0, true⟩).getD 0 "" =
      (invInitRun mvFrame).getD 0 "" ∧
    (AssignOut.audOut ⟨["Invoice # 5"], [""], 0, true⟩).getD 0 "" = "" := by
  have hsafeIU : ∀ p ∈ groupsOfIU mvFrame pvFrame none true, ∀ sr ∈ p.2,
      (invInitIU mvFrame).getD (sr - 2) "" = "" → sr - 2 ≠ 0 := by
    intro p hp sr hsr hbl
    have hgs : groupsOfIU mvFrame pvFrame none true = [("Jane", [2])] := by decide
    rw [hgs] at hp
    have hp' : p = ("Jane", [2]) := List.mem_singleton.mp hp
    subst hp'
    have hsr' : sr = 2 := List.mem_singleton.mp hsr
    subst hsr'
    exact absurd hbl (by decide)
  have hsafeRun : ∀ p ∈ groupsOfRun mvFrame pvFrame none, ∀ sr ∈ p.2,
      (invInitRun mvFrame).getD (sr - 2) "" = "" → sr - 2 ≠ 0 := by
    intro p hp sr hsr hbl
    have hgs : groupsOfRun mvFrame pvFrame none = [("Jane", [2])] := by decide
    rw [hgs] at hp
    have hp' : p = ("Jane", [2]) := List.mem_singleton.mp hp
    subst hp'
    have hsr' : sr = 2 := List.mem_singleton.mp hsr
    subst hsr'
    exact absurd hbl (by decide)
  have hA := C2_frame_amended.1 mvFrame pvFrame none true
    ⟨["Invoice # 5"], ["OLDAUDIT"], 0, true⟩ (by decide) 0 hsafeIU
  have hB := C2_frame_amended.2 mvFrame pvFrame none
    ⟨["Invoice # 5"], [""], 0, true⟩ (by decide) 0 hsafeRun
  exact ⟨hA.1, hA.2 ["OLDAUDIT"] (by decide), hB.1, hB.2⟩
